import Mathlib

/-!
Verification of the multipart transfer orchestrator of `oss/multipart.go`
(`UploadFile`, `DownloadFile`, `CompleteMultipartUpload` and the helpers they
call).  The remote service and the local file system are modelled as an
environment (oracle) supplying the outcome of every external call; the
orchestrators are shallowly embedded as pure interpreters that return the
final result together with the trace of external calls they issued and, for
downloads, the byte content of the local sink.

Conventions:
* Go `int`/`int64` values are modelled as `Int`.  Arithmetic in the embedded
  code never overflows for the inputs reachable through `strconv.ParseInt`
  clamping except within one chunk of `2^63`, where wraparound is not
  modelled (no claim depends on it).
* Errors are modelled as `Except String`, carrying the Go error message where
  the message is produced by the code under `src/`, and an opaque
  environment-chosen message for errors produced by collaborators.
-/

namespace OSS

/-- A part result token (`UploadPart` in `type.go`, as used by
`multipart.go`): the 1-based part ordinal and the content fingerprint (ETag)
returned by the remote service. -/
structure UploadPart where
  PartNumber : Int
  ETag : String
deriving DecidableEq, Repr

/-- A part descriptor produced by `SplitFileByPartSize` (`FileChunk` in
`utils.go`): 1-based ordinal, byte offset and byte size. -/
structure FileChunk where
  Number : Int
  Offset : Int
  Size : Int
deriving DecidableEq, Repr

/-- Result of `InitiateMultipartUpload`: the session handle (upload id and
target key). -/
structure InitiateMultipartUploadResult where
  UploadID : String
  Key : String
deriving DecidableEq, Repr

/-- Modelled from the spec: the minimum accepted part size (`MinPartSize` in
`const.go`, not under `src/`); the spec gives "a minimum of 100 KiB". -/
def MinPartSize : Int := 100 * 1024

/-- Modelled from the spec: the maximum accepted part size (`MaxPartSize` in
`const.go`, not under `src/`); the spec gives "a maximum bound of 5 GiB". -/
def MaxPartSize : Int := 5 * 1024 * 1024 * 1024

/-- One remote call issued by the upload orchestrator, in issue order.
`uploadPart` records the request parameters of `UploadPartFromFile`
(part number, start position, part size); `complete` records the part list
sent in the `CompleteMultipartUpload` request body (after sorting). -/
inductive UploadCall where
  | initiate
  | uploadPart (Number Offset Size : Int)
  | complete (parts : List UploadPart)
  | abort
deriving DecidableEq, Repr

/-- Environment for one `UploadFile` run: the outcome of the
`InitiateMultipartUpload` call, of the k-th `UploadPartFromFile` call
(the ETag of the stored part on success; any local-open or transfer failure
is an error), of the `CompleteMultipartUpload` call and of the
`AbortMultipartUpload` call. -/
structure UploadEnv where
  initRes : Except String InitiateMultipartUploadResult
  partETag : Nat → Except String String
  completeRes : Except String Unit
  abortRes : Except String Unit

/-- `UploadPartFromFile` (lines 85-105): on success the returned token takes
its `PartNumber` from the argument and its `ETag` from the response header;
on any failure the error is returned unchanged. -/
def UploadPartFromFile (env : UploadEnv) (k : Nat) (chunk : FileChunk) :
    Except String UploadPart :=
  match env.partETag k with
  | .error e => .error e
  | .ok etag => .ok { PartNumber := chunk.Number, ETag := etag }

/-- The part-transfer loop of `UploadFile` (lines 277-286), without the
abort-and-return handling done by the caller: transfers the chunks in order,
appending each result to `parts`; stops at the first failure.  Returns the
collected parts (or the first error) and the trace of `uploadPart` calls
issued (the failing call included). -/
def uploadLoop (env : UploadEnv) (chunks : List FileChunk) (k : Nat)
    (parts : List UploadPart) :
    Except String (List UploadPart) × List UploadCall :=
  match chunks with
  | [] => (.ok parts, [])
  | chunk :: rest =>
    match UploadPartFromFile env k chunk with
    | .error e => (.error e, [.uploadPart chunk.Number chunk.Offset chunk.Size])
    | .ok part =>
      let r := uploadLoop env rest (k + 1) (parts ++ [part])
      (r.1, .uploadPart chunk.Number chunk.Offset chunk.Size :: r.2)

/-!
### Go's `sort.Sort`

`CompleteMultipartUpload` (line 161) sorts the part list with
`sort.Sort(uploadParts(parts))`.  `sort.Sort` is the Go standard library's
classic introsort (`src/sort/sort.go`, the algorithm shipped unchanged in Go
1.8 through 1.18, the era of this repository): quicksort with median-of-three
(ninther above 40) pivoting and duplicate protection, falling back to heapsort
at depth `2*⌈log₂ n⌉` and to a gap-6 shell pass followed by insertion sort on
slices of at most 12 elements.  Its documentation states "The sort is not
guaranteed to be stable."  The transcription below is faithful to that
algorithm, element for element.

The slice is modelled as a function state `St : Nat → UploadPart`; index
arithmetic is on `Nat` (all Go index expressions in the algorithm are
non-negative in context).  Go's downward `for` loops and the unbounded
`for {}` partition loops are written as recursion on a natural number that
is exactly the loop variant (remaining index count or pointer gap); a branch
returning the state unchanged when that variant is `0` coincides with the Go
loop's exit condition, so the translation is exact.
-/

/-- Mutable-slice state: index `k` holds `st k`. -/
def St : Type := Nat → UploadPart

/-- `uploadParts.Swap(i, j)` (the `sort.Interface` for `[]UploadPart`,
defined in a repository file not under `src/`; modelled from the spec —
element exchange). -/
def swapSt (st : St) (i j : Nat) : St :=
  fun k => if k = i then st j else if k = j then st i else st k

/-- `uploadParts.Less(i, j)` (not under `src/`; modelled from the spec:
"a stable total ordering by ascending ordinal" — comparison is on the part
ordinal alone). -/
def lessSt (st : St) (i j : Nat) : Bool :=
  (st i).PartNumber < (st j).PartNumber

/-- Inner loop of Go's `insertionSort`:
`for j := i; j > a && data.Less(j, j-1); j--  { data.Swap(j, j-1) }`. -/
def insInner (st : St) (a : Nat) : Nat → St
  | 0 => st
  | j + 1 =>
    if a < j + 1 ∧ lessSt st (j + 1) j then insInner (swapSt st (j + 1) j) a j
    else st

/-- Outer loop of Go's `insertionSort`, `g` counts the remaining values of
`i` (`for i := a+1; i < b; i++`). -/
def insOuter : Nat → St → Nat → Nat → St
  | 0, st, _, _ => st
  | g + 1, st, a, i => insOuter g (insInner st a i) a (i + 1)

/-- Go's `insertionSort(data, a, b)`. -/
def insertionSort (st : St) (a b : Nat) : St :=
  insOuter (b - (a + 1)) st a (a + 1)

/-- The gap-6 ShellSort pass of Go's `quickSort` base case:
`for i := a+6; i < b; i++ { if data.Less(i, i-6) { data.Swap(i, i-6) } }`;
`g` counts the remaining values of `i`. -/
def shellLoop : Nat → St → Nat → St
  | 0, st, _ => st
  | g + 1, st, i =>
    shellLoop g (if lessSt st i (i - 6) then swapSt st i (i - 6) else st) (i + 1)

/-- The child `siftDown` descends to: the larger of the two children of
`root` (`child++` when the right sibling exists and compares greater). -/
def siftChild (st : St) (root hi first : Nat) : Nat :=
  if 2 * root + 1 + 1 < hi ∧
      lessSt st (first + (2 * root + 1)) (first + (2 * root + 1) + 1) then
    2 * root + 1 + 1
  else 2 * root + 1

/-- Go's `siftDown(data, lo, hi, first)` with `root` the current node; the
first argument is the loop variant `hi - root`, which strictly decreases
(the child index `2*root+1` exceeds `root`); when it is `0` the loop guard
`child >= hi` holds as well, so the two exits agree. -/
def siftDown : Nat → St → Nat → Nat → Nat → St
  | 0, st, _, _, _ => st
  | f + 1, st, root, hi, first =>
    if 2 * root + 1 ≥ hi then st
    else if ¬ lessSt st (first + root) (first + siftChild st root hi first) then st
    else
      siftDown f (swapSt st (first + root) (first + siftChild st root hi first))
        (siftChild st root hi first) hi first

/-- First loop of Go's `heapSort`
(`for i := (hi-1)/2; i >= 0; i--  { siftDown(data, i, hi, first) }`);
the counter is `i + 1`. -/
def heapBuild : Nat → St → Nat → Nat → St
  | 0, st, _, _ => st
  | c + 1, st, hi, first => heapBuild c (siftDown (hi - c) st c hi first) hi first

/-- Second loop of Go's `heapSort`
(`for i := hi-1; i >= 0; i--  { data.Swap(first, first+i); siftDown(data, lo, i, first) }`);
the counter is `i + 1`. -/
def heapPop : Nat → St → Nat → St
  | 0, st, _ => st
  | c + 1, st, first =>
    heapPop c (siftDown c (swapSt st first (first + c)) 0 c first) first

/-- Go's `heapSort(data, a, b)`. -/
def heapSort (st : St) (a b : Nat) : St :=
  let first := a
  let hi := b - a
  heapPop hi (heapBuild ((hi - 1) / 2 + 1) st hi first) first

/-- Go's `medianOfThree(data, m1, m0, m2)`. -/
def medianOfThree (st : St) (m1 m0 m2 : Nat) : St :=
  let st := if lessSt st m1 m0 then swapSt st m1 m0 else st
  if lessSt st m2 m1 then
    let st := swapSt st m2 m1
    if lessSt st m1 m0 then swapSt st m1 m0 else st
  else st

/-- `for ; a < c && data.Less(a, pivot); a++` of Go's `doPivot` (also the
second scan of the protection loop); the first argument is the loop variant
`c - a`. -/
def scanA : Nat → St → Nat → Nat → Nat → Nat
  | 0, _, a, _, _ => a
  | f + 1, st, a, c, pivot =>
    if a < c ∧ lessSt st a pivot then scanA f st (a + 1) c pivot else a

/-- `for ; b < c && !data.Less(pivot, b); b++` of Go's `doPivot`; variant
`c - b`. -/
def scanB : Nat → St → Nat → Nat → Nat → Nat
  | 0, _, b, _, _ => b
  | f + 1, st, b, c, pivot =>
    if b < c ∧ ¬ lessSt st pivot b then scanB f st (b + 1) c pivot else b

/-- `for ; b < c && data.Less(pivot, c-1); c--` of Go's `doPivot`; variant
`c - b`. -/
def scanC : Nat → St → Nat → Nat → Nat → Nat
  | 0, _, _, c, _ => c
  | f + 1, st, b, c, pivot =>
    if b < c ∧ lessSt st pivot (c - 1) then scanC f st b (c - 1) pivot else c

/-- The main partition loop of Go's `doPivot`; variant `c - b` (each
iteration moves `b` and `c` toward each other by two). -/
def partLoop : Nat → St → Nat → Nat → Nat → St × Nat × Nat
  | 0, st, b, c, _ => (st, b, c)
  | f + 1, st, b, c, pivot =>
    let b := scanB (c - b) st b c pivot
    let c := scanC (c - b) st b c pivot
    if b ≥ c then (st, b, c)
    else partLoop f (swapSt st b (c - 1)) (b + 1) (c - 1) pivot

/-- `for ; a < b && !data.Less(b-1, pivot); b--` of Go's `doPivot`
protection loop; variant `b - a`. -/
def scanBDown : Nat → St → Nat → Nat → Nat → Nat
  | 0, _, _, b, _ => b
  | f + 1, st, a, b, pivot =>
    if a < b ∧ ¬ lessSt st (b - 1) pivot then scanBDown f st a (b - 1) pivot else b

/-- The duplicate-protection loop of Go's `doPivot`; variant `b - a`. -/
def protectLoop : Nat → St → Nat → Nat → Nat → St × Nat × Nat
  | 0, st, a, b, _ => (st, a, b)
  | f + 1, st, a, b, pivot =>
    let b := scanBDown (b - a) st a b pivot
    let a := scanA (b - a) st a b pivot
    if a ≥ b then (st, a, b)
    else protectLoop f (swapSt st a (b - 1)) (a + 1) (b - 1) pivot

/-- The Tukey-ninther pivot preparation of Go's `doPivot`
(`if hi-lo > 40 { ... three medianOfThree calls ... }`). -/
def ninther (st : St) (lo hi m : Nat) : St :=
  if hi - lo > 40 then
    let s := (hi - lo) / 8
    let st := medianOfThree st lo (lo + s) (lo + 2 * s)
    let st := medianOfThree st m (m - s) (m + s)
    medianOfThree st (hi - 1) (hi - 1 - s) (hi - 1 - 2 * s)
  else st

/-- The duplicate-counting block of Go's `doPivot`
(`if !protect && hi-c < (hi-lo)/4 { dups := 0; ... }`); returns the new
state, `b`, `c` and `dups`. -/
def dupsBlock (st : St) (pivot m hi b c : Nat) : St × Nat × Nat × Nat :=
  let r3 :=
    if ¬ lessSt st pivot (hi - 1) then (swapSt st c (hi - 1), c + 1, 1)
    else (st, c, 0)
  let st := r3.1
  let c := r3.2.1
  let dups := r3.2.2
  let r4 :=
    if ¬ lessSt st (b - 1) pivot then (b - 1, dups + 1) else (b, dups)
  let b := r4.1
  let dups := r4.2
  if ¬ lessSt st m pivot then (swapSt st m (b - 1), b - 1, c, dups + 1)
  else (st, b, c, dups)

/-- Go's `doPivot(data, lo, hi)`: returns the state and `(midlo, midhi)`. -/
def doPivot (st : St) (lo hi : Nat) : St × Nat × Nat :=
  let m := lo + (hi - lo) / 2
  let st := ninther st lo hi m
  let st := medianOfThree st lo m (hi - 1)
  let pivot := lo
  let a := scanA (hi - 1 - (lo + 1)) st (lo + 1) (hi - 1) pivot
  let r := partLoop (hi - 1 - a) st a (hi - 1) pivot
  let st := r.1
  let b := r.2.1
  let c := r.2.2
  let protect := hi - c < 5
  let r2 :=
    if ¬ protect ∧ hi - c < (hi - lo) / 4 then
      let r5 := dupsBlock st pivot m hi b c
      (r5.1, r5.2.1, r5.2.2.1, decide (r5.2.2.2 > 1))
    else (st, b, c, decide protect)
  let st := r2.1
  let b := r2.2.1
  let c := r2.2.2.1
  let r6 := if r2.2.2.2 then protectLoop (b - a) st a b pivot else (st, a, b)
  let st := r6.1
  let b := r6.2.2
  let st := swapSt st pivot (b - 1)
  (st, b - 1, c)

/-- The base case of Go's `quickSort` (`b-a <= 12`): a gap-6 ShellSort pass
followed by `insertionSort`, skipped for slices of at most one element. -/
def qsBase (st : St) (a b : Nat) : St :=
  if b - a > 1 then insertionSort (shellLoop (b - (a + 6)) st (a + 6)) a b
  else st

/-- Go's `quickSort(data, a, b, maxDepth)`, structurally recursive on
`maxDepth`; the `for b-a > 12` loop with `a = mhi` (resp. `b = mlo`)
reassignment is the tail-recursive call on the remaining half. -/
def quickSort : Nat → St → Nat → Nat → St
  | 0, st, a, b => if b - a > 12 then heapSort st a b else qsBase st a b
  | d + 1, st, a, b =>
    if b - a > 12 then
      let r := doPivot st a b
      let mlo := r.2.1
      let mhi := r.2.2
      if mlo - a < b - mhi then quickSort d (quickSort d r.1 a mlo) mhi b
      else quickSort d (quickSort d r.1 mhi b) a mlo
    else qsBase st a b

/-- Go's `maxDepth(n)` loop `for i := n; i > 0; i >>= 1 { depth++ }`, with
the first argument a fuel that is at least the iteration count whenever it
is at least `i` (each iteration halves `i`). -/
def maxDepthLoop : Nat → Nat → Nat
  | 0, _ => 0
  | f + 1, i => if i > 0 then maxDepthLoop f (i / 2) + 1 else 0

/-- Go's `maxDepth(n) = 2 * ⌈log₂(n+1)⌉`: the depth at which `quickSort`
switches to `heapSort`. -/
def maxDepth (n : Nat) : Nat := 2 * maxDepthLoop n n

/-- `sort.Sort(uploadParts(parts))` as applied by `CompleteMultipartUpload`
(line 161): load the list into a slice state, run Go's `quickSort` on
`[0, n)` at depth budget `maxDepth n`, and read the slice back. -/
def sortParts (l : List UploadPart) : List UploadPart :=
  let st : St := fun k => l.getD k ⟨0, ""⟩
  (List.range l.length).map (quickSort (maxDepth l.length) st 0 l.length)

/-- The ordering the spec claims for `PartSetInvariants.finalize`: a stable
total order ascending by ordinal, ties kept in submission order, nothing
dropped or deduplicated.  (A straightforward stable insertion sort; on every
input there is exactly one output satisfying the spec's three conditions,
and it is this one.)  Used to state claims; not part of the code. -/
def stableInsert (p : UploadPart) : List UploadPart → List UploadPart
  | [] => [p]
  | q :: rest =>
    if p.PartNumber < q.PartNumber then p :: q :: rest
    else q :: stableInsert p rest

/-- The stable ascending-by-ordinal sort described by the spec (reference
definition for the claims; see `stableInsert`). -/
def stableSortParts : List UploadPart → List UploadPart
  | [] => []
  | p :: rest => stableInsert p (stableSortParts rest)

/-- The part list sent in the body of the `CompleteMultipartUpload` request
(lines 157-172): the caller's parts after `sort.Sort(uploadParts(parts))`
(line 161); nothing else about the list is changed before marshalling. -/
def completeRequestParts (parts : List UploadPart) : List UploadPart :=
  sortParts parts

/-- `UploadFile` (lines 262-294).  `split` is the outcome of
`SplitFileByPartSize` (a local file-system computation in `utils.go`, not
under `src/`; the claims quantify over its outcome, so it is a parameter).
Returns the result and the trace of remote calls in issue order.  The
`AbortMultipartUpload` calls on lines 282 and 290 appear in the trace as
`.abort`; their outcome `env.abortRes` is not consulted, mirroring the
discarded return value in the source. -/
def UploadFile (partSize : Int) (split : Except String (List FileChunk))
    (env : UploadEnv) : Except String Unit × List UploadCall :=
  if partSize < MinPartSize ∨ partSize > MaxPartSize then
    (.error "oss: part size invalid range (1024KB, 5GB]", [])
  else
    match split with
    | .error e => (.error e, [])
    | .ok chunks =>
      match env.initRes with
      | .error e => (.error e, [.initiate])
      | .ok _ =>
        match uploadLoop env chunks 0 [] with
        | (.error e, t) => (.error e, .initiate :: (t ++ [.abort]))
        | (.ok parts, t) =>
          match env.completeRes with
          | .error e =>
            (.error e,
             .initiate :: (t ++ [.complete (completeRequestParts parts), .abort]))
          | .ok _ =>
            (.ok (), .initiate :: (t ++ [.complete (completeRequestParts parts)]))

/-!
### The download path
-/

/-- A request option of `DownloadFile`/`GetObject`: either one of the
caller-supplied options (opaque, numbered) or a `Range(start, last)` option
appended by the download loop (line 325); `start` and `last` are the
inclusive byte bounds of the requested range. -/
inductive DlOpt where
  | user (tag : Nat)
  | range (start last : Int)
deriving DecidableEq, Repr

/-- One external call of `DownloadFile`, in issue order: the
`GetObjectDetailedMeta` probe, the `os.OpenFile` of the local sink, or a
`GetObject` read carrying the full option list of that request. -/
inductive DlCall where
  | probe
  | openSink
  | getObject (opts : List DlOpt)
deriving DecidableEq, Repr

/-- Environment for one `DownloadFile` run: the metadata probe outcome (on
success, the value of the `Content-Length` header, `""` when absent), the
sink-open outcome, the outcome of the k-th `GetObject` call (a byte stream)
and of the k-th `io.CopyBuffer` of that stream into the sink (`none`: the
whole stream is written; `some (p, e)`: the copy fails with error `e` after
writing the first `p` bytes). -/
structure DownloadEnv where
  metaRes : Except String String
  openRes : Except String Unit
  readRes : Nat → Except String (List Nat)
  copyRes : Nat → Option (Nat × String)

/-- Modelled from the spec: `GetPartEnd(begin, total, per)` (`utils.go`, not
under `src/`); the spec derives ranges as `[i, min(i+chunk-1, totalSize-1)]`,
i.e. the inclusive end of the chunk starting at `begin`, clipped to the last
byte of the object. -/
def GetPartEnd (start total per : Int) : Int :=
  if start + per > total then total - 1 else start + per - 1

/-- Error kinds of `strconv.ParseInt`: `ErrSyntax` or `ErrRange`. -/
inductive NumErrKind where
  | synErr
  | rangeErr
deriving DecidableEq, Repr

/-- Decimal digit value of a character (the `'0' <= d && d <= '9'` case of
`strconv.ParseUint`). -/
def digitVal (c : Char) : Option Nat :=
  if '0' ≤ c ∧ c ≤ '9' then some (c.toNat - '0'.toNat) else none

/-- `maxUint64`, the `maxVal` of `strconv.ParseUint(s, 10, 64)`. -/
def maxUint64 : Nat := 2 ^ 64 - 1

/-- `cutoff` of `strconv.ParseUint` for base 10: `maxUint64/10 + 1`. -/
def cutoff10 : Nat := maxUint64 / 10 + 1

/-- The digit loop of `strconv.ParseUint(s, 10, 64)` (Go standard library):
returns the accumulated value and the error, clamping to `maxUint64` on
range overflow and returning `(0, ErrSyntax)` on a non-digit.  (Below
`cutoff` the Go `uint64` multiply-add cannot wrap, so plain `Nat`
arithmetic is exact.) -/
def parseUintLoop : List Char → Nat → Nat × Option NumErrKind
  | [], n => (n, none)
  | c :: rest, n =>
    match digitVal c with
    | none => (0, some .synErr)
    | some v =>
      if n ≥ cutoff10 then (maxUint64, some .rangeErr)
      else
        let n1 := n * 10 + v
        if n1 > maxUint64 then (maxUint64, some .rangeErr)
        else parseUintLoop rest n1

/-- `strconv.ParseInt(s, 10, 0)` on a 64-bit platform (Go standard library,
as called on line 323): sign handling, then `ParseUint`, then the signed
cutoff at `2^63`: a positive overflow returns `(2^63 - 1, ErrRange)`, a
negative one `(-2^63, ErrRange)`, a syntax failure `(0, ErrSyntax)`. -/
def ParseInt (s : String) : Int × Option NumErrKind :=
  match s.data with
  | [] => (0, some .synErr)
  | c :: rest =>
    let digits := if c = '+' ∨ c = '-' then rest else c :: rest
    match digits with
    | [] => (0, some .synErr)
    | _ =>
      match parseUintLoop digits 0 with
      | (_, some .synErr) => (0, some .synErr)
      | (un, e) =>
        if c = '-' then
          if un > 2 ^ 63 then (-(2 : Int) ^ 63, some .rangeErr)
          else (-(un : Int), e)
        else
          if un ≥ 2 ^ 63 then ((2 : Int) ^ 63 - 1, some .rangeErr)
          else ((un : Int), e)

/-- The read loop of `DownloadFile` (lines 324-336).  `i` is the loop
offset, `k` counts the `GetObject` calls, `options` is the accumulating
option slice (the source's `options = append(options, option)` on line 326
reassigns the same slice variable, so it grows across iterations), `sink`
is the byte content written to the local file so far.  The first argument
is the loop variant: the caller passes `objectSize.toNat + 1`, which
strictly dominates the iteration count whenever `partSize ≥ 1` (guaranteed
by the validation on line 307), so the `0` branch is never the exit taken.
On a read failure the error returns immediately; on a copy failure the
partial bytes written stay in the sink. -/
def dlLoop (env : DownloadEnv) (objectSize partSize : Int) :
    Nat → Int → Nat → List DlOpt → List Nat →
      Except String Unit × List DlCall × List Nat
  | 0, _, _, _, sink => (.ok (), [], sink)
  | fuel + 1, i, k, options, sink =>
    if i < objectSize then
      let options := options ++ [DlOpt.range i (GetPartEnd i objectSize partSize)]
      match env.readRes k with
      | .error e => (.error e, [.getObject options], sink)
      | .ok stream =>
        match env.copyRes k with
        | some pe => (.error pe.2, [.getObject options], sink ++ stream.take pe.1)
        | none =>
          let r := dlLoop env objectSize partSize fuel (i + partSize) (k + 1)
            options (sink ++ stream)
          (r.1, .getObject options :: r.2.1, r.2.2)
    else (.ok (), [], sink)

/-- `DownloadFile` (lines 306-338): chunk-size validation, metadata probe,
sink open, then `strconv.ParseInt` of the `Content-Length` header — whose
error is ignored on line 323, only the returned value is used — and the
ranged-read loop.  Returns the result, the trace of external calls, and the
bytes written to the sink. -/
def DownloadFile (partSize : Int) (userOpts : List DlOpt) (env : DownloadEnv) :
    Except String Unit × List DlCall × List Nat :=
  if partSize < 1 ∨ partSize > MaxPartSize then
    (.error "oss: part size invalid range (1, 5GB]", [], [])
  else
    match env.metaRes with
    | .error e => (.error e, [.probe], [])
    | .ok contentLength =>
      match env.openRes with
      | .error e => (.error e, [.probe, .openSink], [])
      | .ok _ =>
        let objectSize := (ParseInt contentLength).1
        let r := dlLoop env objectSize partSize (objectSize.toNat + 1) 0 0 userOpts []
        (r.1, .probe :: .openSink :: r.2.1, r.2.2)

/-- The chunk start offsets `0, C, 2C, … < S` of a download of total size
`S` at chunk size `C` (specification-side description of the loop of
lines 324-336; the fuel argument is as in `dlLoop`). -/
def chunkStarts (S C : Int) : Nat → Int → List Int
  | 0, _ => []
  | fuel + 1, i => if i < S then i :: chunkStarts S C fuel (i + C) else []

/-- The byte ranges a download of total size `S` at chunk size `C` reads,
in issue order: `[i, min(i+C-1, S-1)]` for `i = 0, C, 2C, … < S`. -/
def downloadRanges (S C : Int) : List (Int × Int) :=
  (chunkStarts S C (S.toNat + 1) 0).map (fun i => (i, GetPartEnd i S C))

/-- The `Range` options contained in an option list, in order. -/
def rangesIn (opts : List DlOpt) : List (Int × Int) :=
  opts.filterMap (fun o =>
    match o with
    | .range s e => some (s, e)
    | _ => none)

/-- The byte range a `GetObject` request with options `opts` effectively
reads.  Each `Range` option sets the HTTP `Range` header (`option.go`, not
under `src/`; modelled from the spec's `RangedRead(objectKey, ByteRange,
readOptions)` interface), so when several are present the last one wins. -/
def effectiveRange (opts : List DlOpt) : Option (Int × Int) :=
  (rangesIn opts).getLast?

/-- `true` iff consecutive parts have non-decreasing ordinals ("ascending
by ordinal"). -/
def ascendingByOrdinal : List UploadPart → Bool
  | [] => true
  | [_] => true
  | p :: q :: rest =>
    decide (p.PartNumber ≤ q.PartNumber) && ascendingByOrdinal (q :: rest)

/-- `true` iff consecutive parts have strictly increasing ordinals (the
ordinals are then in particular pairwise distinct). -/
def strictlyAscendingByOrdinal : List UploadPart → Bool
  | [] => true
  | [_] => true
  | p :: q :: rest =>
    decide (p.PartNumber < q.PartNumber) && strictlyAscendingByOrdinal (q :: rest)

/-- The sort key of slice position `i`: the part ordinal (what
`uploadParts.Less` compares). -/
def key (st : St) (i : Nat) : Int := (st i).PartNumber

/-- `m` lies in the subtree rooted at `r` of the implicit binary heap used
by `heapSort` (0-based, children of `i` at `2i+1` and `2i+2`); membership
follows the parent chain `m ↦ (m-1)/2`. -/
def inSubtree (r : Nat) (m : Nat) : Prop :=
  if _ : m ≤ r then m = r else inSubtree r ((m - 1) / 2)
termination_by m
decreasing_by omega

/-- Slice segment `[a, b)` is sorted by ascending ordinal. -/
def SortedSeg (st : St) (a b : Nat) : Prop :=
  ∀ i j, a ≤ i → i ≤ j → j < b → key st i ≤ key st j

/-- The index permutation `σ` moves only positions inside `[a, b)`. -/
def MovesWithin (σ : Equiv.Perm Nat) (a b : Nat) : Prop :=
  ∀ k, k < a ∨ b ≤ k → σ k = k

/-- `st'` is a rearrangement of `st` inside segment `[a, b)`: it reads `st`
through an index permutation fixing everything outside the segment.  (Every
mutation the Go sort performs is a `Swap`, so every intermediate state is of
this form.) -/
def PermSt (st st' : St) (a b : Nat) : Prop :=
  ∃ σ : Equiv.Perm Nat, MovesWithin σ a b ∧ st' = fun k => st (σ k)

/-- Ranges rendered as `Range` options. -/
def rangeOpts (rs : List (Int × Int)) : List DlOpt :=
  rs.map (fun r => DlOpt.range r.1 r.2)

/-- The expected `GetObject` calls of a download that reads the ranges `rs`
starting from option list `opts`: each call appends its range to the shared
option list (line 326) and passes the grown list (line 327). -/
def dlCallsAux (opts : List DlOpt) : List (Int × Int) → List DlCall
  | [] => []
  | r :: rest =>
    DlCall.getObject (opts ++ [DlOpt.range r.1 r.2]) ::
      dlCallsAux (opts ++ [DlOpt.range r.1 r.2]) rest

/-- Concatenation of the streams returned by calls `k, k+1, …, k+n-1`. -/
def takeStreams (streams : Nat → List Nat) : Nat → Nat → List Nat
  | _, 0 => []
  | k, n + 1 => streams k ++ takeStreams streams (k + 1) n

/-- The two ways the `j`-th iteration of the download loop can fail, with
`e` the resulting error and `written` the bytes of that iteration that
nevertheless reach the sink: either the `GetObject` call itself fails
(nothing written), or it returns `streams j` and the `io.CopyBuffer` into
the sink fails after writing a prefix of it. -/
def dlFailMode (env : DownloadEnv) (streams : Nat → List Nat) (j : Nat)
    (e : String) (written : List Nat) : Prop :=
  (env.readRes j = .error e ∧ written = []) ∨
  (env.readRes j = .ok (streams j) ∧
    ∃ p, env.copyRes j = some (p, e) ∧ written = (streams j).take p)

/-- The effective byte range of each ranged read issued by a download
trace, in issue order (non-read calls contribute nothing). -/
def issuedRanges (trace : List DlCall) : List (Int × Int) :=
  trace.filterMap (fun c =>
    match c with
    | .getObject o => effectiveRange o
    | _ => none)

/-!
### Concrete fixtures for witnesses and counterexamples
-/

/-- An 8-part collection with two entries of ordinal 5, `"A"` submitted
before `"B"` (small enough for the shell-pass/insertion base case of Go's
`quickSort`). -/
def exC3 : List UploadPart :=
  [⟨5, "A"⟩, ⟨9, "x1"⟩, ⟨9, "x2"⟩, ⟨5, "B"⟩, ⟨9, "x3"⟩, ⟨9, "x4"⟩,
   ⟨1, "z"⟩, ⟨9, "x5"⟩]

/-- A 13-part collection already ascending by ordinal (eight parts of
ordinal 1, then five of ordinal 2), large enough to take the quicksort
partitioning path. -/
def exC4 : List UploadPart :=
  [⟨1, "t0"⟩, ⟨1, "t1"⟩, ⟨1, "t2"⟩, ⟨1, "t3"⟩, ⟨1, "t4"⟩, ⟨1, "t5"⟩,
   ⟨1, "t6"⟩, ⟨1, "t7"⟩, ⟨2, "t8"⟩, ⟨2, "t9"⟩, ⟨2, "t10"⟩, ⟨2, "t11"⟩,
   ⟨2, "t12"⟩]

/-- Upload environment for witnesses: part 0 succeeds, part 1 fails with
`"part transfer failed"`, later parts would succeed; complete and abort
themselves fail (exercising error suppression). -/
def envU1 : UploadEnv where
  initRes := .ok ⟨"uid", "key"⟩
  partETag := fun k =>
    if k = 1 then .error "part transfer failed" else .ok ("etag" ++ toString k)
  completeRes := .error "complete failed"
  abortRes := .error "abort failed"

/-- Upload environment for witnesses: every part succeeds, complete fails,
abort also fails (exercising suppression of the abort error). -/
def envU2 : UploadEnv where
  initRes := .ok ⟨"uid", "key"⟩
  partETag := fun k => .ok ("etag" ++ toString k)
  completeRes := .error "complete failed"
  abortRes := .error "abort failed"

/-- The three-chunk split of a 250-byte file at part size 100 (the spec's
upload scenario). -/
def chunks250 : List FileChunk :=
  [⟨1, 0, 100⟩, ⟨2, 100, 100⟩, ⟨3, 200, 50⟩]

/-- Download environment for witnesses: a 250-byte object read at chunk
size 100; call `k` returns a stream of the exact chunk length filled with
byte value `k`. -/
def envD1 : DownloadEnv where
  metaRes := .ok "250"
  openRes := .ok ()
  readRes := fun k => .ok (List.replicate (if k < 2 then 100 else 50) k)
  copyRes := fun _ => none

/-- Download environment for witnesses: object of 250 bytes, chunk size
100; the first read succeeds and is fully copied, the second read fails. -/
def envD2 : DownloadEnv where
  metaRes := .ok "250"
  openRes := .ok ()
  readRes := fun k => if k = 1 then .error "read failed" else .ok (List.replicate 100 0)
  copyRes := fun _ => none

/-- Download environment for the `Content-Length` counterexample: the probe
returns the value `2^63` (one past the largest `int64`), which
`strconv.ParseInt` rejects with a range error while returning the clamped
value `2^63 - 1`; the first read then fails. -/
def envD3 : DownloadEnv where
  metaRes := .ok "9223372036854775808"
  openRes := .ok ()
  readRes := fun _ => .error "read failed"
  copyRes := fun _ => none

/-- Download environment for witnesses: the probe returns a `Content-Length`
value that is not a number. -/
def envD4 : DownloadEnv where
  metaRes := .ok "not-a-number"
  openRes := .ok ()
  readRes := fun _ => .error "read failed"
  copyRes := fun _ => none

/-!
## Theorems

First the upload orchestrator; the part-transfer loop is characterised by
`uploadLoop_fail` (first failure at relative index `k`) and `uploadLoop_ok`
(all transfers succeed).
-/

theorem uploadLoop_fail (env : UploadEnv) (e : String) :
    ∀ (k : Nat) (chunks : List FileChunk) (j : Nat) (acc : List UploadPart),
      (∀ i, i < k → ∃ t, env.partETag (j + i) = .ok t) →
      env.partETag (j + k) = .error e → k < chunks.length →
      uploadLoop env chunks j acc =
        (.error e,
          (chunks.take (k + 1)).map fun c => .uploadPart c.Number c.Offset c.Size) := by
  intro k
  induction k with
  | zero =>
    intro chunks j acc _ hfail hk
    match chunks with
    | c :: rest =>
      simp only [Nat.add_zero] at hfail
      simp [uploadLoop, UploadPartFromFile, hfail]
  | succ k ih =>
    intro chunks j acc hok hfail hk
    match chunks with
    | c :: rest =>
      obtain ⟨t, ht⟩ := hok 0 (Nat.succ_pos k)
      simp only [Nat.add_zero] at ht
      have hok' : ∀ i, i < k → ∃ t, env.partETag (j + 1 + i) = .ok t := by
        intro i hi
        have := hok (i + 1) (by omega)
        simpa [Nat.add_comm, Nat.add_assoc, Nat.add_left_comm] using this
      have hfail' : env.partETag (j + 1 + k) = .error e := by
        have : j + 1 + k = j + (k + 1) := by omega
        rw [this, hfail]
      have hk' : k < rest.length := by simpa using hk
      simp [uploadLoop, UploadPartFromFile, ht,
        ih rest (j + 1) (acc ++ [⟨c.Number, t⟩]) hok' hfail' hk']

theorem uploadLoop_ok (env : UploadEnv) :
    ∀ (chunks : List FileChunk) (j : Nat) (acc : List UploadPart),
      (∀ i, i < chunks.length → ∃ t, env.partETag (j + i) = .ok t) →
      ∃ parts,
        uploadLoop env chunks j acc =
          (.ok (acc ++ parts),
            chunks.map fun c => .uploadPart c.Number c.Offset c.Size) := by
  intro chunks
  induction chunks with
  | nil => intro j acc _; exact ⟨[], by simp [uploadLoop]⟩
  | cons c rest ih =>
    intro j acc hok
    obtain ⟨t, ht⟩ := hok 0 (by simp)
    simp only [Nat.add_zero] at ht
    have hok' : ∀ i, i < rest.length → ∃ t, env.partETag (j + 1 + i) = .ok t := by
      intro i hi
      have := hok (i + 1) (by simp; omega)
      simpa [Nat.add_comm, Nat.add_assoc, Nat.add_left_comm] using this
    obtain ⟨parts, hp⟩ := ih (j + 1) (acc ++ [⟨c.Number, t⟩]) hok'
    exact ⟨⟨c.Number, t⟩ :: parts,
      by simp [uploadLoop, UploadPartFromFile, ht, hp]⟩

/-- **C1.** When some part transfer of an `UploadFile` run fails (the first
failure being the `k`-th `UploadPartFromFile` call, `e` its error), the
orchestrator issues exactly one `Abort` immediately after the failing part
call, never issues `Complete`, and returns the original transfer error `e`.
`env.abortRes` is arbitrary and `env.completeRes` is arbitrary, so in
particular a failure of the abort call itself is discarded and never
propagated in place of `e`. -/
theorem uploadFile_partFailure_abortsOnce (partSize : Int)
    (chunks : List FileChunk) (env : UploadEnv)
    (imur : InitiateMultipartUploadResult) (k : Nat) (e : String)
    (hlo : MinPartSize ≤ partSize) (hhi : partSize ≤ MaxPartSize)
    (hinit : env.initRes = .ok imur) (hk : k < chunks.length)
    (hok : ∀ i, i < k → ∃ t, env.partETag i = .ok t)
    (hfail : env.partETag k = .error e) :
    UploadFile partSize (.ok chunks) env =
      (.error e,
        .initiate ::
          (((chunks.take (k + 1)).map fun c => .uploadPart c.Number c.Offset c.Size)
            ++ [.abort])) ∧
    (UploadFile partSize (.ok chunks) env).2.count .abort = 1 ∧
    ∀ ps, UploadCall.complete ps ∉ (UploadFile partSize (.ok chunks) env).2 := by
  have hok0 : ∀ i, i < k → ∃ t, env.partETag (0 + i) = .ok t := by
    simpa using hok
  have hfail0 : env.partETag (0 + k) = .error e := by simpa using hfail
  have hloop := uploadLoop_fail env e k chunks 0 [] hok0 hfail0 hk
  have hmain :
      UploadFile partSize (.ok chunks) env =
        (.error e,
          .initiate ::
            (((chunks.take (k + 1)).map fun c => .uploadPart c.Number c.Offset c.Size)
              ++ [.abort])) := by
    have hnot : ¬(partSize < MinPartSize ∨ partSize > MaxPartSize) := by omega
    simp [UploadFile, hnot, hinit, hloop]
  refine ⟨hmain, ?_, ?_⟩
  · rw [hmain]
    have hz :
        (List.take (k + 1)
          (chunks.map fun c =>
            UploadCall.uploadPart c.Number c.Offset c.Size)).count .abort = 0 := by
      rw [List.count_eq_zero]
      intro h
      obtain ⟨c, -, hc⟩ := List.mem_map.mp (List.mem_of_mem_take h)
      cases hc
    simp [List.count_cons, List.count_append, hz]
  · intro ps
    rw [hmain]
    intro h
    rcases List.mem_cons.mp h with h | h
    · cases h
    rcases List.mem_append.mp h with h | h
    · obtain ⟨c, -, hc⟩ := List.mem_map.mp h
      cases hc
    · have := List.mem_singleton.mp h
      cases this

/-- Witness for `uploadFile_partFailure_abortsOnce`: a three-chunk upload in
which chunk 2 (index 1) fails; the abort call itself also fails in `envU1`
yet the transfer error is returned. -/
theorem uploadFile_partFailure_abortsOnce_witness :
    UploadFile 102400 (.ok chunks250) envU1 =
      (.error "part transfer failed",
        [.initiate, .uploadPart 1 0 100, .uploadPart 2 100 100, .abort]) := by
  have h := uploadFile_partFailure_abortsOnce 102400 chunks250 envU1
    ⟨"uid", "key"⟩ 1 "part transfer failed" (by decide) (by decide) rfl
    (by decide)
    (fun i hi => by interval_cases i; exact ⟨"etag0", rfl⟩) rfl
  exact h.1.trans rfl

/-- **C2.** When every part transfer of an `UploadFile` run succeeds but the
finalization (`CompleteMultipartUpload`) fails with `e`, the orchestrator
issues an `Abort` after the `Complete` call and returns the finalization
error `e`; `env.abortRes` is arbitrary, so the abort call's own outcome is
suppressed and the caller always receives `e`. -/
theorem uploadFile_completeFailure_aborts (partSize : Int)
    (chunks : List FileChunk) (env : UploadEnv)
    (imur : InitiateMultipartUploadResult) (e : String)
    (hlo : MinPartSize ≤ partSize) (hhi : partSize ≤ MaxPartSize)
    (hinit : env.initRes = .ok imur)
    (hok : ∀ i, i < chunks.length → ∃ t, env.partETag i = .ok t)
    (hfail : env.completeRes = .error e) :
    (UploadFile partSize (.ok chunks) env).1 = .error e ∧
    ∃ parts,
      UploadFile partSize (.ok chunks) env =
        (.error e,
          .initiate ::
            ((chunks.map fun c => .uploadPart c.Number c.Offset c.Size) ++
              [.complete (completeRequestParts parts), .abort])) := by
  have hok0 : ∀ i, i < chunks.length → ∃ t, env.partETag (0 + i) = .ok t := by
    simpa using hok
  obtain ⟨parts, hloop⟩ := uploadLoop_ok env chunks 0 [] hok0
  have hnot : ¬(partSize < MinPartSize ∨ partSize > MaxPartSize) := by omega
  have hmain :
      UploadFile partSize (.ok chunks) env =
        (.error e,
          .initiate ::
            ((chunks.map fun c => .uploadPart c.Number c.Offset c.Size) ++
              [.complete (completeRequestParts parts), .abort])) := by
    simp [UploadFile, hnot, hinit, hloop, hfail]
  exact ⟨by rw [hmain], parts, hmain⟩

/-- Witness for `uploadFile_completeFailure_aborts`: all three parts of
`envU2` succeed, the complete call fails, the abort also fails, and the
complete error is what `UploadFile` returns. -/
theorem uploadFile_completeFailure_aborts_witness :
    (UploadFile 102400 (.ok chunks250) envU2).1 = .error "complete failed" :=
  (uploadFile_completeFailure_aborts 102400 chunks250 envU2 ⟨"uid", "key"⟩
    "complete failed" (by decide) (by decide) rfl
    (fun i hi => ⟨"etag" ++ toString i, rfl⟩) rfl).1

/-- **C5.** A part size outside `[MinPartSize, MaxPartSize]` makes
`UploadFile` fail fast with the invalid-range error and an empty trace:
no session is opened, no part is uploaded, and neither `Complete` nor
`Abort` is invoked, whatever the split outcome and the environment. -/
theorem uploadFile_invalidPartSize_noCalls (partSize : Int)
    (split : Except String (List FileChunk)) (env : UploadEnv)
    (h : partSize < MinPartSize ∨ partSize > MaxPartSize) :
    UploadFile partSize split env =
      (.error "oss: part size invalid range (1024KB, 5GB]", []) := by
  simp [UploadFile, if_pos h]

/-- Witness for `uploadFile_invalidPartSize_noCalls` at part size `0`. -/
theorem uploadFile_invalidPartSize_noCalls_witness :
    (0 : Int) < MinPartSize ∧
    UploadFile 0 (.ok chunks250) envU1 =
      (.error "oss: part size invalid range (1024KB, 5GB]", []) :=
  ⟨by decide,
    uploadFile_invalidPartSize_noCalls 0 (.ok chunks250) envU1 (Or.inl (by decide))⟩

/-!
### The download orchestrator
-/

/-- **C6.** A chunk size outside `[1, MaxPartSize]` makes `DownloadFile`
fail with the invalid-range error before any external interaction: no
metadata probe, the sink is never opened, no ranged read is issued. -/
theorem downloadFile_invalidChunkSize_noCalls (partSize : Int)
    (userOpts : List DlOpt) (env : DownloadEnv)
    (h : partSize < 1 ∨ partSize > MaxPartSize) :
    DownloadFile partSize userOpts env =
      (.error "oss: part size invalid range (1, 5GB]", [], []) := by
  simp [DownloadFile, if_pos h]

/-- Witness for `downloadFile_invalidChunkSize_noCalls` at chunk size `0`. -/
theorem downloadFile_invalidChunkSize_noCalls_witness :
    (0 : Int) < 1 ∧
    DownloadFile 0 [] envD1 =
      (.error "oss: part size invalid range (1, 5GB]", [], []) :=
  ⟨by decide, downloadFile_invalidChunkSize_noCalls 0 [] envD1 (Or.inl (by decide))⟩

theorem chunkStarts_head (S C : Int) (fuel : Nat) (i x : Int)
    (hx : x ∈ (chunkStarts S C fuel i).head?) : x = i := by
  cases fuel with
  | zero => simp [chunkStarts] at hx
  | succ f =>
    by_cases hi : i < S
    · rw [chunkStarts, if_pos hi] at hx
      simp at hx
      omega
    · rw [chunkStarts, if_neg hi] at hx
      simp at hx

theorem chunkStarts_chain (S C : Int) (hC : 0 < C) :
    ∀ (fuel : Nat) (i : Int), List.Chain' (· < ·) (chunkStarts S C fuel i) := by
  intro fuel
  induction fuel with
  | zero => intro i; simp [chunkStarts]
  | succ f ih =>
    intro i
    by_cases hi : i < S
    · rw [chunkStarts, if_pos hi]
      refine List.chain'_cons'.mpr ⟨?_, ih (i + C)⟩
      intro y hy
      have := chunkStarts_head S C f (i + C) y hy
      omega
    · rw [chunkStarts, if_neg hi]
      simp

theorem dlLoop_ok (env : DownloadEnv) (S C : Int) (streams : Nat → List Nat)
    (hC : 0 < C)
    (hread : ∀ j, env.readRes j = .ok (streams j))
    (hcopy : ∀ j, env.copyRes j = none) :
    ∀ (fuel : Nat) (i : Int) (k : Nat) (opts : List DlOpt) (sink : List Nat),
      (S - i).toNat < fuel →
      dlLoop env S C fuel i k opts sink =
        (.ok (),
          dlCallsAux opts
            ((chunkStarts S C fuel i).map fun s => (s, GetPartEnd s S C)),
          sink ++ takeStreams streams k (chunkStarts S C fuel i).length) := by
  intro fuel
  induction fuel with
  | zero => intro i k opts sink hf; omega
  | succ f ih =>
    intro i k opts sink hf
    by_cases hi : i < S
    · have hf' : (S - (i + C)).toNat < f := by omega
      have hrec := ih (i + C) (k + 1) (opts ++ [DlOpt.range i (GetPartEnd i S C)])
        (sink ++ streams k) hf'
      rw [chunkStarts, if_pos hi]
      simp only [dlLoop, if_pos hi, hread k, hcopy k]
      rw [hrec]
      simp [dlCallsAux, takeStreams, List.append_assoc]
    · rw [chunkStarts, if_neg hi]
      simp [dlLoop, if_neg hi, dlCallsAux, takeStreams]

theorem takeStreams_length_eq (S C : Int) (streams : Nat → List Nat) (hC : 0 < C) :
    ∀ (fuel : Nat) (i : Int) (k : Nat),
      (S - i).toNat < fuel →
      (∀ j r,
        ((chunkStarts S C fuel i).map fun s => (s, GetPartEnd s S C))[j]? = some r →
        (streams (k + j)).length = (r.2 - r.1 + 1).toNat) →
      (takeStreams streams k (chunkStarts S C fuel i).length).length =
        (S - i).toNat := by
  intro fuel
  induction fuel with
  | zero => intro i k hf; omega
  | succ f ih =>
    intro i k hf hlen
    by_cases hi : i < S
    · rw [chunkStarts, if_pos hi] at hlen ⊢
      have h0 := hlen 0 (i, GetPartEnd i S C) (by simp)
      have hrec :
          (takeStreams streams (k + 1) (chunkStarts S C f (i + C)).length).length =
            (S - (i + C)).toNat := by
        refine ih (i + C) (k + 1) (by omega) ?_
        intro j r hr
        have := hlen (j + 1) r (by simpa using hr)
        simpa [Nat.add_comm, Nat.add_assoc, Nat.add_left_comm] using this
      rw [List.length_cons, takeStreams, List.length_append, hrec]
      rw [Nat.add_zero] at h0
      rw [h0]
      simp only [GetPartEnd]
      split <;> omega
    · rw [chunkStarts, if_neg hi]
      simp [takeStreams]
      omega

theorem dlCallsAux_ranges :
    ∀ (rs : List (Int × Int)) (opts : List DlOpt),
      issuedRanges (dlCallsAux opts rs) = rs := by
  intro rs
  induction rs with
  | nil => intro opts; simp [dlCallsAux, issuedRanges]
  | cons r rest ih =>
    intro opts
    have hlast : effectiveRange (opts ++ [DlOpt.range r.1 r.2]) = some (r.1, r.2) := by
      rw [effectiveRange, rangesIn, List.filterMap_append]
      simp [rangesIn]
    simp only [dlCallsAux, issuedRanges, List.filterMap_cons]
    rw [show (effectiveRange (opts ++ [DlOpt.range r.1 r.2])) = some (r.1, r.2) from hlast]
    have := ih (opts ++ [DlOpt.range r.1 r.2])
    rw [issuedRanges] at this
    rw [this]

theorem dlCallsAux_getElem :
    ∀ (rs : List (Int × Int)) (opts : List DlOpt) (j : Nat), j < rs.length →
      (dlCallsAux opts rs)[j]? =
        some (.getObject (opts ++ rangeOpts (rs.take (j + 1)))) := by
  intro rs
  induction rs with
  | nil => intro opts j hj; simp at hj
  | cons r rest ih =>
    intro opts j hj
    match j with
    | 0 => simp [dlCallsAux, rangeOpts]
    | j + 1 =>
      have hj' : j < rest.length := by simpa using hj
      rw [dlCallsAux]
      simp only [List.getElem?_cons_succ]
      rw [ih (opts ++ [DlOpt.range r.1 r.2]) j hj']
      simp [rangeOpts, List.append_assoc]

theorem dlCallsAux_countReads :
    ∀ (rs : List (Int × Int)) (opts : List DlOpt),
      (dlCallsAux opts rs).countP (fun c =>
        match c with
        | .getObject _ => true
        | _ => false) = rs.length := by
  intro rs
  induction rs with
  | nil => intro opts; simp [dlCallsAux]
  | cons r rest ih =>
    intro opts
    rw [dlCallsAux, List.countP_cons]
    simp [ih]

/-- **C7.** A successful `DownloadFile` run over an object whose parsed
`Content-Length` is `S > 0` with a valid chunk size `C` issues exactly the
ranged reads `[i, min(i+C-1, S-1)]` for `i = 0, C, 2C, … < S`, in that
(ascending) order, appending each returned stream to the sink in the same
order; when the environment returns streams of exactly the requested
lengths the total number of bytes written is `S`. -/
theorem downloadFile_rangedReads (C : Int) (userOpts : List DlOpt)
    (env : DownloadEnv) (s : String) (S : Int) (streams : Nat → List Nat)
    (h1 : 1 ≤ C) (h2 : C ≤ MaxPartSize) (hS : 0 < S)
    (hmeta : env.metaRes = .ok s) (hparse : (ParseInt s).1 = S)
    (hopen : env.openRes = .ok ())
    (hread : ∀ j, env.readRes j = .ok (streams j))
    (hcopy : ∀ j, env.copyRes j = none)
    (hlen : ∀ j r, (downloadRanges S C)[j]? = some r →
      (streams j).length = (r.2 - r.1 + 1).toNat) :
    DownloadFile C userOpts env =
      (.ok (), .probe :: .openSink :: dlCallsAux userOpts (downloadRanges S C),
        takeStreams streams 0 (downloadRanges S C).length) ∧
    issuedRanges (DownloadFile C userOpts env).2.1 = downloadRanges S C ∧
    (∀ r ∈ downloadRanges S C, r.2 = min (r.1 + C - 1) (S - 1)) ∧
    List.Chain' (fun r r' : Int × Int => r.1 < r'.1) (downloadRanges S C) ∧
    (DownloadFile C userOpts env).2.2.length = S.toNat := by
  have hC : 0 < C := by omega
  have hnot : ¬(C < 1 ∨ C > MaxPartSize) := by omega
  have hfuel : (S - 0).toNat < S.toNat + 1 := by omega
  have hloop := dlLoop_ok env S C streams hC hread hcopy (S.toNat + 1) 0 0
    userOpts [] hfuel
  have hmain :
      DownloadFile C userOpts env =
        (.ok (), .probe :: .openSink :: dlCallsAux userOpts (downloadRanges S C),
          takeStreams streams 0 (downloadRanges S C).length) := by
    simp only [DownloadFile, if_neg hnot, hmeta, hopen, hparse]
    rw [hloop, downloadRanges]
    simp [List.length_map]
  refine ⟨hmain, ?_, ?_, ?_, ?_⟩
  · rw [hmain]
    show issuedRanges (.probe :: .openSink :: dlCallsAux userOpts (downloadRanges S C)) = _
    rw [issuedRanges, List.filterMap_cons, List.filterMap_cons]
    exact dlCallsAux_ranges (downloadRanges S C) userOpts
  · intro r hr
    rw [downloadRanges] at hr
    obtain ⟨st, -, hst⟩ := List.mem_map.mp hr
    rw [← hst, GetPartEnd]
    split <;> omega
  · rw [downloadRanges]
    rw [List.chain'_map]
    exact chunkStarts_chain S C hC (S.toNat + 1) 0
  · rw [hmain]
    have hlen0 : ∀ (j : Nat) (r : Int × Int),
        ((chunkStarts S C (S.toNat + 1) 0).map fun s =>
          (s, GetPartEnd s S C))[j]? = some r →
        (streams (0 + j)).length = (r.2 - r.1 + 1).toNat := by
      intro j r hr
      rw [Nat.zero_add]
      exact hlen j r (by rwa [downloadRanges])
    have := takeStreams_length_eq S C streams hC (S.toNat + 1) 0 0 hfuel hlen0
    simp only [downloadRanges, List.length_map] at this ⊢
    omega

/-- Witness for `downloadFile_rangedReads`: the spec's download scenario —
object of 250 bytes at chunk size 100 gives exactly the ranges
`[0,99]`, `[100,199]`, `[200,249]` and 250 bytes in the sink. -/
theorem downloadFile_rangedReads_witness :
    issuedRanges (DownloadFile 100 [DlOpt.user 7] envD1).2.1 =
      [(0, 99), (100, 199), (200, 249)] ∧
    (DownloadFile 100 [DlOpt.user 7] envD1).2.2.length = 250 := by
  have h := downloadFile_rangedReads 100 [DlOpt.user 7] envD1 "250" 250
    (fun k => List.replicate (if k < 2 then 100 else 50) k)
    (by decide) (by decide) (by decide) rfl (by decide) rfl
    (fun j => rfl) (fun j => rfl)
    (by
      intro j r hr
      match j with
      | 0 => injection hr with hr; subst hr; decide
      | 1 => injection hr with hr; subst hr; decide
      | 2 => injection hr with hr; subst hr; decide
      | j + 3 =>
        have hnone : (downloadRanges 250 100)[j + 3]? = none := by
          have h3 : (downloadRanges 250 100).length = 3 := by decide
          rw [List.getElem?_eq_none]
          omega
        rw [hnone] at hr
        cases hr)
  exact ⟨h.2.1.trans (by decide), h.2.2.2.2.trans (by decide)⟩

theorem dlLoop_fail (env : DownloadEnv) (S C : Int) (streams : Nat → List Nat)
    (e : String) (written : List Nat) (hC : 0 < C) :
    ∀ (m fuel : Nat) (i : Int) (k : Nat) (opts : List DlOpt) (sink : List Nat),
      (S - i).toNat < fuel →
      (∀ j, j < m → env.readRes (k + j) = .ok (streams (k + j)) ∧
        env.copyRes (k + j) = none) →
      m < (chunkStarts S C fuel i).length →
      dlFailMode env streams (k + m) e written →
      dlLoop env S C fuel i k opts sink =
        (.error e,
          dlCallsAux opts
            (((chunkStarts S C fuel i).take (m + 1)).map fun s =>
              (s, GetPartEnd s S C)),
          sink ++ takeStreams streams k m ++ written) := by
  intro m
  induction m with
  | zero =>
    intro fuel i k opts sink hf _ hm hfail
    match fuel with
    | f + 1 =>
      by_cases hi : i < S
      · rcases hfail with ⟨hr, hw⟩ | ⟨hr, p, hc, hw⟩
        · rw [Nat.add_zero] at hr
          rw [chunkStarts, if_pos hi]
          simp only [dlLoop, if_pos hi, hr]
          simp [dlCallsAux, takeStreams, hw]
        · rw [Nat.add_zero] at hr hc
          rw [chunkStarts, if_pos hi]
          simp only [dlLoop, if_pos hi, hr, hc]
          simp [dlCallsAux, takeStreams, hw]
      · rw [chunkStarts, if_neg hi] at hm
        simp at hm
  | succ m ih =>
    intro fuel i k opts sink hf hprev hm hfail
    match fuel with
    | f + 1 =>
      by_cases hi : i < S
      · obtain ⟨hr0, hc0⟩ := hprev 0 (Nat.succ_pos m)
        rw [Nat.add_zero] at hr0 hc0
        rw [chunkStarts, if_pos hi] at hm ⊢
        have hm' : m < (chunkStarts S C f (i + C)).length := by simpa using hm
        have hprev' : ∀ j, j < m → env.readRes (k + 1 + j) = .ok (streams (k + 1 + j)) ∧
            env.copyRes (k + 1 + j) = none := by
          intro j hj
          have := hprev (j + 1) (by omega)
          constructor
          · have h1 := this.1
            have heq : k + (j + 1) = k + 1 + j := by omega
            rw [heq] at h1
            exact h1
          · have h2 := this.2
            have heq : k + (j + 1) = k + 1 + j := by omega
            rw [heq] at h2
            exact h2
        have hfail' : dlFailMode env streams (k + 1 + m) e written := by
          have heq : k + 1 + m = k + (m + 1) := by omega
          rw [heq]
          exact hfail
        have hrec := ih f (i + C) (k + 1)
          (opts ++ [DlOpt.range i (GetPartEnd i S C)]) (sink ++ streams k)
          (by omega) hprev' hm' hfail'
        simp only [dlLoop, if_pos hi, hr0, hc0]
        rw [hrec]
        simp [dlCallsAux, takeStreams, List.append_assoc]
      · rw [chunkStarts, if_neg hi] at hm
        simp at hm

/-- **C8.** When the `j₀`-th ranged read of a `DownloadFile` run (or the
copy of its stream into the sink) fails with `e`, the orchestrator returns
`e` immediately, the trace contains exactly `j₀ + 1` ranged reads (no
further ranges are requested and no compensating call is made), and the
bytes of the `j₀` completed ranges remain in the sink (followed only by the
partial bytes of the failing copy, if any) — nothing is rolled back. -/
theorem downloadFile_midloopFailure (C : Int) (userOpts : List DlOpt)
    (env : DownloadEnv) (s : String) (S : Int) (streams : Nat → List Nat)
    (j₀ : Nat) (e : String) (written : List Nat)
    (h1 : 1 ≤ C) (h2 : C ≤ MaxPartSize)
    (hmeta : env.metaRes = .ok s) (hparse : (ParseInt s).1 = S)
    (hopen : env.openRes = .ok ())
    (hprev : ∀ j, j < j₀ → env.readRes j = .ok (streams j) ∧ env.copyRes j = none)
    (hj : j₀ < (downloadRanges S C).length)
    (hfail : dlFailMode env streams j₀ e written) :
    DownloadFile C userOpts env =
      (.error e,
        .probe :: .openSink ::
          dlCallsAux userOpts ((downloadRanges S C).take (j₀ + 1)),
        takeStreams streams 0 j₀ ++ written) ∧
    List.IsPrefix (takeStreams streams 0 j₀) (DownloadFile C userOpts env).2.2 ∧
    (DownloadFile C userOpts env).2.1.countP (fun c =>
      match c with
      | .getObject _ => true
      | _ => false) = j₀ + 1 := by
  have hC : 0 < C := by omega
  have hnot : ¬(C < 1 ∨ C > MaxPartSize) := by omega
  have hfuel : (S - 0).toNat < S.toNat + 1 := by omega
  have hj' : j₀ < (chunkStarts S C (S.toNat + 1) 0).length := by
    rw [downloadRanges, List.length_map] at hj
    exact hj
  have hprev0 : ∀ j, j < j₀ → env.readRes (0 + j) = .ok (streams (0 + j)) ∧
      env.copyRes (0 + j) = none := by simpa using hprev
  have hfail0 : dlFailMode env streams (0 + j₀) e written := by simpa using hfail
  have hloop := dlLoop_fail env S C streams e written hC j₀ (S.toNat + 1) 0 0
    userOpts [] hfuel hprev0 hj' hfail0
  have hmain :
      DownloadFile C userOpts env =
        (.error e,
          .probe :: .openSink ::
            dlCallsAux userOpts ((downloadRanges S C).take (j₀ + 1)),
          takeStreams streams 0 j₀ ++ written) := by
    simp only [DownloadFile, if_neg hnot, hmeta, hopen, hparse]
    rw [hloop]
    simp [downloadRanges, List.map_take]
  refine ⟨hmain, ?_, ?_⟩
  · rw [hmain]
    exact ⟨written, rfl⟩
  · rw [hmain]
    show (DlCall.probe :: DlCall.openSink :: _).countP _ = _
    rw [List.countP_cons, List.countP_cons, dlCallsAux_countReads]
    have : ((downloadRanges S C).take (j₀ + 1)).length = j₀ + 1 := by
      rw [List.length_take]
      omega
    simp [this]

/-- Witness for `downloadFile_midloopFailure`: 250-byte object, chunk size
100, the second read (`j₀ = 1`) fails; the first range's 100 bytes stay in
the sink and only two reads were issued. -/
theorem downloadFile_midloopFailure_witness :
    (DownloadFile 100 [] envD2).1 = .error "read failed" ∧
    (DownloadFile 100 [] envD2).2.2 = List.replicate 100 0 ∧
    (DownloadFile 100 [] envD2).2.1.countP (fun c =>
      match c with
      | .getObject _ => true
      | _ => false) = 2 := by
  have h := downloadFile_midloopFailure 100 [] envD2 "250" 250
    (fun _ => List.replicate 100 0) 1 "read failed" []
    (by decide) (by decide) rfl (by decide) rfl
    (fun j hj => by interval_cases j; exact ⟨rfl, rfl⟩)
    (by decide) (Or.inl ⟨rfl, rfl⟩)
  refine ⟨by rw [h.1], ?_, h.2.2⟩
  rw [h.1]
  simp [takeStreams]

/-- A syntax failure of `strconv.ParseInt` always comes with the returned
value `0` (every `ErrSyntax` return site of `ParseInt` returns `0`). -/
theorem parseInt_synErr_val (s : String)
    (h : (ParseInt s).2 = some NumErrKind.synErr) : (ParseInt s).1 = 0 := by
  rw [ParseInt] at h ⊢
  cases hd : s.data with
  | nil => rfl
  | cons c rest =>
    rw [hd] at h
    dsimp only at h ⊢
    by_cases hsign : c = '+' ∨ c = '-'
    · rw [if_pos hsign] at h ⊢
      cases rest with
      | nil => rfl
      | cons d ds =>
        rcases hpu : parseUintLoop (d :: ds) 0 with ⟨un, eo⟩
        rw [hpu] at h
        cases eo with
        | none =>
          dsimp only at h ⊢
          by_cases hneg : c = '-'
          · rw [if_pos hneg] at h ⊢
            split at h <;> simp_all
          · rw [if_neg hneg] at h ⊢
            split at h <;> simp_all
        | some k =>
          cases k with
          | synErr => rfl
          | rangeErr =>
            dsimp only at h ⊢
            by_cases hneg : c = '-'
            · rw [if_pos hneg] at h ⊢
              split at h <;> simp_all
            · rw [if_neg hneg] at h ⊢
              split at h <;> simp_all
    · rw [if_neg hsign] at h ⊢
      rcases hpu : parseUintLoop (c :: rest) 0 with ⟨un, eo⟩
      rw [hpu] at h
      cases eo with
      | none =>
        dsimp only at h ⊢
        by_cases hneg : c = '-'
        · rw [if_pos hneg] at h ⊢
          split at h <;> simp_all
        · rw [if_neg hneg] at h ⊢
          split at h <;> simp_all
      | some k =>
        cases k with
        | synErr => rfl
        | rangeErr =>
          dsimp only at h ⊢
          by_cases hneg : c = '-'
          · rw [if_pos hneg] at h ⊢
            split at h <;> simp_all
          · rw [if_neg hneg] at h ⊢
            split at h <;> simp_all

/-- **C9, counterexample.**  A `Content-Length` of `"9223372036854775808"`
(that is `2^63`, one past `int64`) cannot be parsed — `strconv.ParseInt`
reports `ErrRange` — yet `DownloadFile` does *not* treat the size as `0`
and return success with no reads: `ParseInt` returns the clamped value
`2^63 - 1`, the loop starts, and the first ranged read (here failing) is
issued.  This refutes the claim that any unparsable header value leads to
zero iterations and a `nil` return. -/
theorem downloadFile_contentLengthRange_counterexample :
    (ParseInt "9223372036854775808").2 = some NumErrKind.rangeErr ∧
    (ParseInt "9223372036854775808").1 = 2 ^ 63 - 1 ∧
    DownloadFile 100 [] envD3 =
      (.error "read failed",
        [.probe, .openSink, .getObject [.range 0 99]], []) ∧
    DownloadFile 100 [] envD3 ≠ (.ok (), [.probe, .openSink], []) := by
  have hmain : DownloadFile 100 [] envD3 =
      (.error "read failed",
        [.probe, .openSink, .getObject [.range 0 99]], []) := rfl
  refine ⟨by decide, by decide, hmain, ?_⟩
  rw [hmain]
  intro hcontra
  exact Except.noConfusion (congrArg Prod.fst hcontra)

/-- **C9, amended.**  When the metadata probe succeeds but the
`Content-Length` value fails to parse with a *syntax* error (missing
header, non-numeric value), the parse error is ignored, the returned value
`0` is used as the object size, the read loop runs zero iterations, and
`DownloadFile` returns success having issued no ranged read and written
nothing to the sink.  (A *range*-overflow parse failure instead uses the
clamped value, see `downloadFile_contentLengthRange_counterexample`.) -/
theorem downloadFile_syntaxErrContentLength (C : Int) (userOpts : List DlOpt)
    (env : DownloadEnv) (s : String)
    (h1 : 1 ≤ C) (h2 : C ≤ MaxPartSize)
    (hmeta : env.metaRes = .ok s) (hopen : env.openRes = .ok ())
    (hsyn : (ParseInt s).2 = some NumErrKind.synErr) :
    DownloadFile C userOpts env = (.ok (), [.probe, .openSink], []) := by
  have hnot : ¬(C < 1 ∨ C > MaxPartSize) := by omega
  have hval : (ParseInt s).1 = 0 := parseInt_synErr_val s hsyn
  simp only [DownloadFile, if_neg hnot, hmeta, hopen, hval]
  rw [show ((0 : Int).toNat + 1) = 1 from rfl, dlLoop]
  simp

/-- Witness for `downloadFile_syntaxErrContentLength`: `envD4` returns the
non-numeric `Content-Length` value `"not-a-number"`. -/
theorem downloadFile_syntaxErrContentLength_witness :
    (ParseInt "not-a-number").2 = some NumErrKind.synErr ∧
    DownloadFile 100 [] envD4 = (.ok (), [.probe, .openSink], []) :=
  ⟨by decide,
    downloadFile_syntaxErrContentLength 100 [] envD4 "not-a-number"
      (by decide) (by decide) rfl rfl (by decide)⟩

/-- **C10.** In `DownloadFile` every iteration appends its `Range` option to
the same `options` slice that is then passed to `GetObject` (lines
326-327), so the `j`-th ranged read (0-based) carries all `j + 1` `Range`
options accumulated so far in addition to the caller-supplied options —
not only the single range of that chunk. -/
theorem downloadFile_optionsAccumulate (C : Int) (userOpts : List DlOpt)
    (env : DownloadEnv) (s : String) (S : Int) (streams : Nat → List Nat)
    (j : Nat)
    (h1 : 1 ≤ C) (h2 : C ≤ MaxPartSize)
    (hmeta : env.metaRes = .ok s) (hparse : (ParseInt s).1 = S)
    (hopen : env.openRes = .ok ())
    (hread : ∀ j, env.readRes j = .ok (streams j))
    (hcopy : ∀ j, env.copyRes j = none)
    (hj : j < (downloadRanges S C).length) :
    (DownloadFile C userOpts env).2.1[j + 2]? =
      some (.getObject (userOpts ++ rangeOpts ((downloadRanges S C).take (j + 1)))) := by
  have hC : 0 < C := by omega
  have hnot : ¬(C < 1 ∨ C > MaxPartSize) := by omega
  have hfuel : (S - 0).toNat < S.toNat + 1 := by omega
  have hloop := dlLoop_ok env S C streams hC hread hcopy (S.toNat + 1) 0 0
    userOpts [] hfuel
  have hmain :
      (DownloadFile C userOpts env).2.1 =
        .probe :: .openSink :: dlCallsAux userOpts (downloadRanges S C) := by
    simp only [DownloadFile, if_neg hnot, hmeta, hopen, hparse]
    rw [hloop, downloadRanges]
  rw [hmain]
  simp only [List.getElem?_cons_succ]
  exact dlCallsAux_getElem (downloadRanges S C) userOpts j hj

/-- Witness for `downloadFile_optionsAccumulate`: in the 250/100 download
the second read (j = 1) carries the caller option and both ranges
`[0,99]` and `[100,199]`. -/
theorem downloadFile_optionsAccumulate_witness :
    (DownloadFile 100 [DlOpt.user 7] envD1).2.1[3]? =
      some (.getObject [.user 7, .range 0 99, .range 100 199]) := by
  have h := downloadFile_optionsAccumulate 100 [DlOpt.user 7] envD1 "250" 250
    (fun k => List.replicate (if k < 2 then 100 else 50) k) 1
    (by decide) (by decide) rfl (by decide) rfl
    (fun j => rfl) (fun j => rfl) (by decide)
  exact h.trans (by decide)

/-!
### The part-set ordering (`sort.Sort` in `CompleteMultipartUpload`)
-/

/-- **C3, counterexample.**  The ordering `CompleteMultipartUpload` applies
is not stable: in `exC3` the two ordinal-5 results were submitted `"A"`
before `"B"`, but Go's `sort.Sort` (here: the gap-6 shell pass swapping
index 6 under index 0, followed by insertion sort) emits `"B"` before
`"A"`.  The output therefore differs from the unique ordering satisfying
the claim (ascending, nothing dropped, ties in submission order), which is
`stableSortParts exC3`. -/
theorem completeRequestParts_unstable_counterexample :
    completeRequestParts exC3 =
      [⟨1, "z"⟩, ⟨5, "B"⟩, ⟨5, "A"⟩, ⟨9, "x1"⟩, ⟨9, "x2"⟩, ⟨9, "x3"⟩,
        ⟨9, "x4"⟩, ⟨9, "x5"⟩] ∧
    completeRequestParts exC3 ≠ stableSortParts exC3 ∧
    exC3.indexOf ⟨5, "A"⟩ < exC3.indexOf ⟨5, "B"⟩ ∧
    (completeRequestParts exC3).indexOf ⟨5, "B"⟩ <
      (completeRequestParts exC3).indexOf ⟨5, "A"⟩ := by
  refine ⟨by decide, by decide, by decide, by decide⟩

/-- **C4, counterexample.**  The ordering is not idempotent on sequences
that are (non-strictly) ascending by ordinal: `exC4` is already ascending,
yet Go's `sort.Sort` returns it reordered (the duplicate-ordinal entries
`"t0"` and `"t7"` trade places under quicksort partitioning). -/
theorem sortParts_notIdempotent_counterexample :
    ascendingByOrdinal exC4 = true ∧
    sortParts exC4 ≠ exC4 ∧
    sortParts exC4 =
      [⟨1, "t7"⟩, ⟨1, "t1"⟩, ⟨1, "t2"⟩, ⟨1, "t3"⟩, ⟨1, "t4"⟩, ⟨1, "t5"⟩,
        ⟨1, "t6"⟩, ⟨1, "t0"⟩, ⟨2, "t8"⟩, ⟨2, "t9"⟩, ⟨2, "t10"⟩, ⟨2, "t11"⟩,
        ⟨2, "t12"⟩] := by
  refine ⟨by decide, by decide, by decide⟩

/-!
### Correctness of the `sort.Sort` transcription

Every mutation the algorithm performs is a `Swap`, so every intermediate
state reads the initial state through an index permutation confined to the
segment being sorted (`PermSt`).  The lemmas below establish, per Go
function, the permutation property and — for the sorting passes — the
sortedness of the affected segment.
-/

theorem permSt_refl (st : St) (a b : Nat) : PermSt st st a b :=
  ⟨Equiv.refl Nat, fun _ _ => rfl, rfl⟩

theorem permSt_trans {st st' st'' : St} {a b : Nat}
    (h1 : PermSt st st' a b) (h2 : PermSt st' st'' a b) :
    PermSt st st'' a b := by
  obtain ⟨σ, hσ, rfl⟩ := h1
  obtain ⟨τ, hτ, rfl⟩ := h2
  refine ⟨τ.trans σ, ?_, ?_⟩
  · intro k hk
    simp [Equiv.trans_apply, hτ k hk, hσ k hk]
  · funext k
    simp [Equiv.trans_apply]

theorem permSt_mono {st st' : St} {a b a' b' : Nat}
    (h : PermSt st st' a b) (ha : a' ≤ a) (hb : b ≤ b') :
    PermSt st st' a' b' := by
  obtain ⟨σ, hσ, rfl⟩ := h
  exact ⟨σ, fun k hk => hσ k (by omega), rfl⟩

theorem swapSt_eq_comp (st : St) (i j : Nat) :
    swapSt st i j = fun k => st (Equiv.swap i j k) := by
  funext k
  rw [swapSt, Equiv.swap_apply_def]
  split_ifs <;> simp_all

theorem permSt_swap (st : St) {a b : Nat} (i j : Nat)
    (hia : a ≤ i) (hib : i < b) (hja : a ≤ j) (hjb : j < b) :
    PermSt st (swapSt st i j) a b := by
  refine ⟨Equiv.swap i j, ?_, swapSt_eq_comp st i j⟩
  intro k hk
  exact Equiv.swap_apply_of_ne_of_ne (by omega) (by omega)

theorem permSt_frame {st st' : St} {a b : Nat} (h : PermSt st st' a b) :
    ∀ k, k < a ∨ b ≤ k → st' k = st k := by
  obtain ⟨σ, hσ, rfl⟩ := h
  intro k hk
  show st (σ k) = st k
  rw [hσ k hk]

theorem movesWithin_mem {σ : Equiv.Perm Nat} {a b : Nat}
    (hσ : MovesWithin σ a b) {k : Nat} (ha : a ≤ k) (hb : k < b) :
    a ≤ σ k ∧ σ k < b := by
  by_contra hcon
  have hout : σ k < a ∨ b ≤ σ k := by omega
  have hfix : σ (σ k) = σ k := hσ (σ k) hout
  have : σ k = k := σ.injective hfix
  omega

theorem permSt_pred {st st' : St} {a b : Nat} {P : UploadPart → Prop}
    (h : PermSt st st' a b) (hP : ∀ i, a ≤ i → i < b → P (st i)) :
    ∀ i, a ≤ i → i < b → P (st' i) := by
  obtain ⟨σ, hσ, rfl⟩ := h
  intro i hi1 hi2
  obtain ⟨h1, h2⟩ := movesWithin_mem hσ hi1 hi2
  exact hP (σ i) h1 h2

/-! #### `insertionSort` -/

theorem insInner_perm (a b : Nat) :
    ∀ (j : Nat) (st : St), j < b → PermSt st (insInner st a j) a b := by
  intro j
  induction j with
  | zero => intro st _; exact permSt_refl st a b
  | succ j ih =>
    intro st hj
    rw [insInner]
    split
    case isTrue h =>
      exact permSt_trans
        (permSt_swap st (j + 1) j (by omega) hj (by omega) (by omega))
        (ih _ (by omega))
    case isFalse h => exact permSt_refl st a b

theorem insInner_sorted (a i : Nat) :
    ∀ (j : Nat) (st : St), j ≤ i →
      SortedSeg st a j →
      (∀ p q, j ≤ p → p ≤ q → q ≤ i → key st p ≤ key st q) →
      (∀ p q, a ≤ p → p < j → j < q → q ≤ i → key st p ≤ key st q) →
      SortedSeg (insInner st a j) a (i + 1) := by
  intro j
  induction j with
  | zero =>
    intro st _ _ hmid _
    intro p q hp hpq hq
    exact hmid p q (Nat.zero_le p) hpq (by omega)
  | succ j ih =>
    intro st hj hsort hmid hbr
    rw [insInner]
    split
    case isTrue h =>
      obtain ⟨haj, hlt0⟩ := h
      have hlt : key st (j + 1) < key st j := by
        simpa [lessSt, key] using hlt0
      set sw := swapSt st (j + 1) j with hsw
      have hswpk : ∀ p, p ≠ j → p ≠ j + 1 → key sw p = key st p := by
        intro p h1 h2
        rw [hsw, key, key, swapSt, if_neg h2, if_neg h1]
      have hkj : key sw j = key st (j + 1) := by
        rw [hsw, key, key, swapSt]
        simp
      have hkj1 : key sw (j + 1) = key st j := by
        rw [hsw, key, key, swapSt]
        simp
      refine ih sw (by omega) ?_ ?_ ?_
      · -- [a, j) is still sorted: untouched positions
        intro p q hp hpq hq
        rw [hswpk p (by omega) (by omega), hswpk q (by omega) (by omega)]
        exact hsort p q hp hpq (by omega)
      · -- the tail [j, i] is an ascending chain again
        intro p q hp hpq hq
        rcases Nat.lt_or_ge p (j + 1) with hp1 | hp1
        · have hpj : p = j := by omega
          subst hpj
          rcases Nat.lt_or_ge q (p + 1) with hq1 | hq1
          · have : q = p := by omega
            rw [this]
          · rcases Nat.lt_or_ge q (p + 2) with hq2 | hq2
            · have : q = p + 1 := by omega
              rw [this, hkj, hkj1]
              exact le_of_lt hlt
            · rw [hkj, hswpk q (by omega) (by omega)]
              exact hmid (p + 1) q (by omega) (by omega) hq
        · rcases Nat.lt_or_ge p (j + 2) with hp2 | hp2
          · have hpj : p = j + 1 := by omega
            subst hpj
            rcases Nat.lt_or_ge q (j + 2) with hq2 | hq2
            · have : q = j + 1 := by omega
              rw [this]
            · rw [hkj1, hswpk q (by omega) (by omega)]
              exact hbr j q (by omega) (by omega) (by omega) hq
          · rw [hswpk p (by omega) (by omega), hswpk q (by omega) (by omega)]
            exact hmid p q (by omega) hpq hq
      · -- bridge across the hole at j
        intro p q hp hpj hjq hq
        rw [hswpk p (by omega) (by omega)]
        rcases Nat.lt_or_ge q (j + 2) with hq2 | hq2
        · have : q = j + 1 := by omega
          rw [this, hkj1]
          exact hsort p j hp (by omega) (by omega)
        · rw [hswpk q (by omega) (by omega)]
          exact hbr p q hp (by omega) (by omega) hq
    case isFalse h =>
      rw [not_and_or] at h
      intro p q hp hpq hq
      rcases h with h | h
      · exact hmid p q (by omega) hpq (by omega)
      · have hlink : key st j ≤ key st (j + 1) := by
          have := of_decide_eq_false (eq_false_of_ne_true h)
          simpa [lessSt, key] using this
        by_cases hq1 : q ≤ j
        · exact hsort p q hp hpq (by omega)
        by_cases hp1 : j + 1 ≤ p
        · exact hmid p q (by omega) hpq (by omega)
        · have hq2 : j + 1 ≤ q := by omega
          have hp2 : p ≤ j := by omega
          have h1 : key st p ≤ key st j := by
            rcases Nat.lt_or_ge p j with h2 | h2
            · exact hsort p j hp (by omega) (by omega)
            · have : p = j := by omega
              rw [this]
          have h3 : key st (j + 1) ≤ key st q :=
            hmid (j + 1) q (by omega) hq2 (by omega)
          exact le_trans h1 (le_trans hlink h3)

theorem insOuter_perm (a b : Nat) :
    ∀ (g : Nat) (st : St) (i : Nat), i + g ≤ b →
      PermSt st (insOuter g st a i) a b := by
  intro g
  induction g with
  | zero => intro st i _; exact permSt_refl st a b
  | succ g ih =>
    intro st i hg
    rw [insOuter]
    exact permSt_trans (insInner_perm a b i st (by omega)) (ih _ (i + 1) (by omega))

theorem insOuter_sorted (a b : Nat) :
    ∀ (g : Nat) (st : St) (i : Nat), a < i → i + g = b →
      SortedSeg st a i → SortedSeg (insOuter g st a i) a b := by
  intro g
  induction g with
  | zero =>
    intro st i _ hg hsort
    rw [insOuter]
    have : i = b := by omega
    rwa [this] at hsort
  | succ g ih =>
    intro st i hai hg hsort
    rw [insOuter]
    refine ih _ (i + 1) (by omega) (by omega) ?_
    exact insInner_sorted a i i st (le_refl i) hsort
      (fun p q hp hpq hq => by
        have : p = q := by omega
        rw [this])
      (fun p q _ _ hjq hq => by omega)

theorem insertionSort_perm (st : St) (a b : Nat) :
    PermSt st (insertionSort st a b) a b := by
  rw [insertionSort]
  by_cases h : a + 1 ≤ b
  · exact insOuter_perm a b (b - (a + 1)) st (a + 1) (by omega)
  · have : b - (a + 1) = 0 := by omega
    rw [this, insOuter]
    exact permSt_refl st a b

theorem insertionSort_sorted (st : St) (a b : Nat) :
    SortedSeg (insertionSort st a b) a b := by
  rw [insertionSort]
  by_cases h : a + 1 < b
  · refine insOuter_sorted a b (b - (a + 1)) st (a + 1) (by omega) (by omega) ?_
    intro p q hp hpq hq
    have : p = q := by omega
    rw [this]
  · by_cases h2 : a + 1 = b
    · rw [h2, Nat.sub_self, insOuter]
      intro p q hp hpq hq
      have : p = q := by omega
      rw [this]
    · have : b - (a + 1) = 0 := by omega
      rw [this, insOuter]
      intro p q hp hpq hq
      omega

/-! #### the gap-6 shell pass -/

theorem shellLoop_perm (a b : Nat) :
    ∀ (g : Nat) (st : St) (i : Nat), a + 6 ≤ i → i + g ≤ b →
      PermSt st (shellLoop g st i) a b := by
  intro g
  induction g with
  | zero => intro st i _ _; exact permSt_refl st a b
  | succ g ih =>
    intro st i hi hg
    rw [shellLoop]
    refine permSt_trans ?_ (ih _ (i + 1) (by omega) (by omega))
    split
    · exact permSt_swap st i (i - 6) (by omega) (by omega) (by omega) (by omega)
    · exact permSt_refl st a b

/-! #### the `quickSort` base case -/

theorem qsBase_perm (st : St) (a b : Nat) : PermSt st (qsBase st a b) a b := by
  rw [qsBase]
  split
  · refine permSt_trans ?_ (insertionSort_perm _ a b)
    by_cases h : a + 6 ≤ b
    · exact shellLoop_perm a b (b - (a + 6)) st (a + 6) (le_refl _) (by omega)
    · have : b - (a + 6) = 0 := by omega
      rw [this, shellLoop]
      exact permSt_refl st a b
  · exact permSt_refl st a b

theorem qsBase_sorted (st : St) (a b : Nat) : SortedSeg (qsBase st a b) a b := by
  rw [qsBase]
  split
  case isTrue h => exact insertionSort_sorted _ a b
  case isFalse h =>
    intro p q hp hpq hq
    have : p = q := by omega
    rw [this]

/-! #### `heapSort` -/

theorem inSubtree_self (r : Nat) : inSubtree r r := by
  rw [inSubtree]
  simp

theorem inSubtree_ge {r m : Nat} (h : inSubtree r m) : r ≤ m := by
  rw [inSubtree] at h
  split at h
  · omega
  · omega

theorem inSubtree_parent {r m : Nat} (h : inSubtree r m) (hne : m ≠ r) :
    inSubtree r ((m - 1) / 2) := by
  rw [inSubtree] at h
  split at h
  · omega
  · exact h

theorem inSubtree_of_parent {r p m : Nat} (h : inSubtree r p) (hm : 1 ≤ m)
    (hp : (m - 1) / 2 = p) : inSubtree r m := by
  have hrp : r ≤ p := inSubtree_ge h
  rw [inSubtree]
  split
  · omega
  · rwa [hp]

theorem inSubtree_trans {r c : Nat} :
    ∀ m, inSubtree c m → inSubtree r c → inSubtree r m := by
  intro m
  induction m using Nat.strong_induction_on with
  | _ m ih =>
    intro h1 h2
    by_cases hmc : m = c
    · rwa [hmc]
    · have hcm : c < m := by
        have := inSubtree_ge h1
        omega
      have hpar := inSubtree_parent h1 hmc
      have hlt : (m - 1) / 2 < m := by omega
      exact inSubtree_of_parent (ih _ hlt hpar h2) (by omega) rfl

theorem not_inSubtree_of_lt {r m : Nat} (h : m < r) : ¬ inSubtree r m := by
  intro hc
  have := inSubtree_ge hc
  omega

theorem inSubtree_child1 {r m : Nat} (h : inSubtree r m) :
    inSubtree r (2 * m + 1) :=
  inSubtree_of_parent h (by omega) (by omega)

theorem inSubtree_child2 {r m : Nat} (h : inSubtree r m) :
    inSubtree r (2 * m + 2) :=
  inSubtree_of_parent h (by omega) (by omega)

theorem not_inSubtree_sibling1 (r : Nat) : ¬ inSubtree (2 * r + 1) (2 * r + 2) := by
  intro h
  have hp := inSubtree_parent h (by omega)
  have : (2 * r + 2 - 1) / 2 = r := by omega
  rw [this] at hp
  have := inSubtree_ge hp
  omega

theorem not_inSubtree_sibling2 (r : Nat) : ¬ inSubtree (2 * r + 2) (2 * r + 1) := by
  intro h
  have := inSubtree_ge h
  omega

/-- Values inside a subtree are bounded by the value at its root, as long
as every heap edge whose parent is in the subtree holds. -/
theorem subtree_bound (st : St) (first c hi : Nat)
    (hedge : ∀ m, 0 < m → m < hi → c ≤ (m - 1) / 2 →
      key st (first + m) ≤ key st (first + (m - 1) / 2)) :
    ∀ m, inSubtree c m → m < hi → key st (first + m) ≤ key st (first + c) := by
  intro m
  induction m using Nat.strong_induction_on with
  | _ m ih =>
    intro hm hhi
    by_cases hmc : m = c
    · rw [hmc]
    · have hcm : c < m := by
        have := inSubtree_ge hm
        omega
      have hpar := inSubtree_parent hm hmc
      have hc2 : c ≤ (m - 1) / 2 := inSubtree_ge hpar
      have h1 : key st (first + m) ≤ key st (first + (m - 1) / 2) :=
        hedge m (by omega) hhi hc2
      have h2 := ih ((m - 1) / 2) (by omega) hpar (by omega)
      exact le_trans h1 h2

/-- In a heap every value is bounded by the value at position `0`. -/
theorem heap_max (st : St) (first hi : Nat)
    (hedge : ∀ m, 0 < m → m < hi →
      key st (first + m) ≤ key st (first + (m - 1) / 2)) :
    ∀ m, m < hi → key st (first + m) ≤ key st (first + 0) := by
  intro m
  induction m using Nat.strong_induction_on with
  | _ m ih =>
    intro hhi
    by_cases hm0 : m = 0
    · rw [hm0]
    · exact le_trans (hedge m (by omega) hhi)
        (ih ((m - 1) / 2) (by omega) (by omega))

theorem swapSt_left (st : St) (i j : Nat) : swapSt st i j i = st j := by
  rw [swapSt]
  simp

theorem swapSt_right (st : St) (i j : Nat) : swapSt st i j j = st i := by
  rw [swapSt]
  by_cases h : j = i
  · rw [if_pos h, h]
  · rw [if_neg h, if_pos rfl]

theorem swapSt_other (st : St) {i j p : Nat} (h1 : p ≠ i) (h2 : p ≠ j) :
    swapSt st i j p = st p := by
  rw [swapSt, if_neg h1, if_neg h2]

theorem siftChild_cases (st : St) (root hi first : Nat) :
    siftChild st root hi first = 2 * root + 1 ∨
      siftChild st root hi first = 2 * root + 2 := by
  rw [siftChild]
  split
  · right; rfl
  · left; rfl

theorem siftChild_lt (st : St) {root hi : Nat} (first : Nat)
    (h : 2 * root + 1 < hi) : siftChild st root hi first < hi := by
  rw [siftChild]
  split
  case isTrue hs => omega
  case isFalse hs => omega

theorem siftChild_parent (st : St) (root hi first : Nat) :
    (siftChild st root hi first - 1) / 2 = root := by
  rcases siftChild_cases st root hi first with h | h <;> rw [h] <;> omega

theorem siftChild_max (st : St) {root hi : Nat} (first : Nat) :
    ∀ m, 0 < m → m < hi → (m - 1) / 2 = root →
      key st (first + m) ≤ key st (first + siftChild st root hi first) := by
  intro m hm hhi hpar
  have hm2 : m = 2 * root + 1 ∨ m = 2 * root + 2 := by omega
  rw [siftChild]
  split
  case isTrue hs =>
    rcases hm2 with rfl | rfl
    · have hlt : key st (first + (2 * root + 1)) <
          key st (first + (2 * root + 1) + 1) := by
        simpa [lessSt, key] using hs.2
      have he : first + (2 * root + 1) + 1 = first + (2 * root + 1 + 1) := by omega
      rw [he] at hlt
      exact le_of_lt hlt
    · have he : (2 : Nat) * root + 2 = 2 * root + 1 + 1 := by omega
      rw [he]
  case isFalse hs =>
    rcases hm2 with rfl | rfl
    · exact le_refl _
    · rw [not_and_or] at hs
      rcases hs with hs | hs
      · omega
      · have hle : key st (first + (2 * root + 1) + 1) ≤
            key st (first + (2 * root + 1)) := by
          have := of_decide_eq_false (eq_false_of_ne_true hs)
          simp only [lessSt, key] at this ⊢
          omega
        have he : first + (2 * root + 1) + 1 = first + (2 * root + 2) := by omega
        rw [he] at hle
        exact hle

theorem siftDown_perm (hi first : Nat) :
    ∀ (f : Nat) (st : St) (root : Nat),
      PermSt st (siftDown f st root hi first) (first + root) (first + hi) := by
  intro f
  induction f with
  | zero => intro st root; exact permSt_refl _ _ _
  | succ f ih =>
    intro st root
    rw [siftDown]
    split
    · exact permSt_refl _ _ _
    case isFalse h1 =>
      split
      · exact permSt_refl _ _ _
      case isFalse h2 =>
        have hc1 : 2 * root + 1 ≤ siftChild st root hi first := by
          rcases siftChild_cases st root hi first with h | h <;> omega
        have hc2 : siftChild st root hi first < hi :=
          siftChild_lt st first (by omega)
        refine permSt_trans
          (permSt_swap st (first + root) (first + siftChild st root hi first)
            (by omega) (by omega) (by omega) (by omega)) ?_
        exact permSt_mono (ih _ (siftChild st root hi first)) (by omega) (by omega)

theorem siftDown_frame (hi first : Nat) :
    ∀ (f : Nat) (st : St) (root : Nat) (p : Nat),
      (p < first ∨ (first ≤ p ∧ ¬ inSubtree root (p - first))) →
      siftDown f st root hi first p = st p := by
  intro f
  induction f with
  | zero => intro st root p _; rw [siftDown]
  | succ f ih =>
    intro st root p hp
    rw [siftDown]
    split
    · rfl
    case isFalse h1 =>
      split
      · rfl
      case isFalse h2 =>
        set c := siftChild st root hi first with hc
        have hcsub : inSubtree root c := by
          rcases siftChild_cases st root hi first with h | h <;> rw [← hc] at h
          · rw [h]
            exact inSubtree_child1 (inSubtree_self root)
          · rw [h]
            exact inSubtree_child2 (inSubtree_self root)
        have hpr : p ≠ first + root := by
          rcases hp with hp | ⟨hp1, hp2⟩
          · omega
          · intro hcon
            apply hp2
            rw [hcon]
            have : first + root - first = root := by omega
            rw [this]
            exact inSubtree_self root
        have hpc : p ≠ first + c := by
          rcases hp with hp | ⟨hp1, hp2⟩
          · omega
          · intro hcon
            apply hp2
            rw [hcon]
            have : first + c - first = c := by omega
            rw [this]
            exact hcsub
        rw [ih _ c p ?_, swapSt_other st hpr hpc]
        rcases hp with hp | ⟨hp1, hp2⟩
        · exact Or.inl hp
        · refine Or.inr ⟨hp1, fun hcon => hp2 ?_⟩
          exact inSubtree_trans _ hcon hcsub

theorem siftDown_bound (hi first : Nat) :
    ∀ (f : Nat) (st : St) (root : Nat) (v : Int),
      (∀ m, inSubtree root m → m < hi → key st (first + m) ≤ v) →
      ∀ m, inSubtree root m → m < hi →
        key (siftDown f st root hi first) (first + m) ≤ v := by
  intro f
  induction f with
  | zero => intro st root v hv m hm hhi; rw [siftDown]; exact hv m hm hhi
  | succ f ih =>
    intro st root v hv m hm hhi
    rw [siftDown]
    split
    · exact hv m hm hhi
    case isFalse h1 =>
      split
      · exact hv m hm hhi
      case isFalse h2 =>
        set c := siftChild st root hi first with hc
        have hcsub : inSubtree root c := by
          rcases siftChild_cases st root hi first with h | h <;> rw [← hc] at h
          · rw [h]
            exact inSubtree_child1 (inSubtree_self root)
          · rw [h]
            exact inSubtree_child2 (inSubtree_self root)
        have hclt : c < hi := by
          rw [hc]
          exact siftChild_lt st first (by omega)
        have hswv : ∀ m', inSubtree root m' → m' < hi →
            key (swapSt st (first + root) (first + c)) (first + m') ≤ v := by
          intro m' hm' hhi'
          by_cases he1 : m' = root
          · rw [he1, key, swapSt_left]
            exact hv c hcsub hclt
          · by_cases he2 : m' = c
            · rw [he2, key, swapSt_right]
              exact hv root (inSubtree_self root) (by omega)
            · rw [key, swapSt_other st (by omega) (by omega)]
              exact hv m' hm' hhi'
        by_cases hmc : inSubtree c m
        · exact ih _ c v
            (fun m' hm' hhi' => hswv m' (inSubtree_trans _ hm' hcsub) hhi')
            m hmc hhi
        · rw [key, siftDown_frame hi first f _ c (first + m)
            (Or.inr ⟨by omega, by
              have : first + m - first = m := by omega
              rw [this]
              exact hmc⟩)]
          exact hswv m hm hhi

theorem siftDown_heap (hi first : Nat) :
    ∀ (f : Nat) (st : St) (root : Nat),
      hi - root ≤ f →
      (∀ m, 0 < m → m < hi → root < (m - 1) / 2 →
        key st (first + m) ≤ key st (first + (m - 1) / 2)) →
      ∀ m, 0 < m → m < hi → root ≤ (m - 1) / 2 →
        key (siftDown f st root hi first) (first + m) ≤
          key (siftDown f st root hi first) (first + (m - 1) / 2) := by
  intro f
  induction f with
  | zero =>
    intro st root hf hpre m hm hhi hpar
    exfalso
    omega
  | succ f ih =>
    intro st root hf hpre m hm hhi hpar
    rw [siftDown]
    split
    case isTrue h1 =>
      rcases Nat.lt_or_ge root ((m - 1) / 2) with hgt | hge
      · exact hpre m hm hhi hgt
      · exfalso
        omega
    case isFalse h1 =>
      split
      case isTrue h2 =>
        have hroot : key st (first + siftChild st root hi first) ≤
            key st (first + root) := by
          simp only [lessSt, key, decide_eq_true_eq, not_lt] at h2
          exact h2
        rcases Nat.lt_or_ge root ((m - 1) / 2) with hgt | hge
        · exact hpre m hm hhi hgt
        · have hpr : (m - 1) / 2 = root := by omega
          rw [hpr]
          exact le_trans (siftChild_max st first m hm hhi hpr) hroot
      case isFalse h2 =>
        rw [not_not] at h2
        set c := siftChild st root hi first with hc
        have hswlt : key st (first + root) < key st (first + c) := by
          simp only [lessSt, key, decide_eq_true_eq] at h2
          exact h2
        set sw := swapSt st (first + root) (first + c) with hsw
        set st2 := siftDown f sw c hi first with hst2
        have hc12 : c = 2 * root + 1 ∨ c = 2 * root + 2 := by
          rw [hc]
          exact siftChild_cases st root hi first
        have hclt : c < hi := by
          rw [hc]
          exact siftChild_lt st first (by omega)
        have hcgt : root < c := by omega
        have hcsub : inSubtree root c := by
          rcases hc12 with h | h
          · rw [h]
            exact inSubtree_child1 (inSubtree_self root)
          · rw [h]
            exact inSubtree_child2 (inSubtree_self root)
        have hcpar : (c - 1) / 2 = root := by omega
        have hpre2 : ∀ m', 0 < m' → m' < hi → c < (m' - 1) / 2 →
            key sw (first + m') ≤ key sw (first + (m' - 1) / 2) := by
          intro m' hm' hhi' hpar'
          have hmgt : (m' - 1) / 2 < m' := by omega
          rw [hsw, key, key,
            swapSt_other st (by omega) (by omega),
            swapSt_other st (by omega) (by omega)]
          exact hpre m' hm' hhi' (by omega)
        have hpost := ih sw c (by omega) hpre2
        have hfr_root : key st2 (first + root) = key st (first + c) := by
          rw [hst2, key, siftDown_frame hi first f sw c (first + root)
            (Or.inr ⟨by omega, by
              have he : first + root - first = root := by omega
              rw [he]
              exact not_inSubtree_of_lt hcgt⟩)]
          rw [hsw, swapSt_left]
          rfl
        have hfr_out : ∀ x, ¬ inSubtree c x → x ≠ root →
            key st2 (first + x) = key st (first + x) := by
          intro x hx1 hx2
          rw [hst2, key, siftDown_frame hi first f sw c (first + x)
            (Or.inr ⟨by omega, by
              have he : first + x - first = x := by omega
              rw [he]
              exact hx1⟩)]
          have hxc : x ≠ c := fun hcon => hx1 (hcon ▸ inSubtree_self c)
          rw [hsw, swapSt_other st (by omega) (by omega)]
          rfl
        have hbnd : key st2 (first + c) ≤ key st (first + c) := by
          rw [hst2]
          refine siftDown_bound hi first f sw c (key st (first + c)) ?_ c
            (inSubtree_self c) hclt
          intro m' hm' hhi'
          by_cases hmc' : m' = c
          · rw [hmc', hsw, key, swapSt_right]
            exact le_of_lt hswlt
          · have hm'root : root < m' := by
              have := inSubtree_ge hm'
              omega
            rw [hsw, key, swapSt_other st (by omega) (by omega)]
            refine subtree_bound st first c hi ?_ m' hm' hhi'
            intro m'' hm''0 hm''hi hm''par
            exact hpre m'' hm''0 hm''hi (by omega)
        rcases Nat.lt_or_ge root ((m - 1) / 2) with hgt | hge
        · by_cases hmsub : inSubtree c m
          · by_cases hmc : m = c
            · exfalso
              omega
            · have hparsub : inSubtree c ((m - 1) / 2) := inSubtree_parent hmsub hmc
              exact hpost m hm hhi (inSubtree_ge hparsub)
          · have hparnsub : ¬ inSubtree c ((m - 1) / 2) := by
              intro hcon
              exact hmsub (inSubtree_of_parent hcon (by omega) rfl)
            have hm_ne : m ≠ root := by omega
            have hpar_ne : (m - 1) / 2 ≠ root := by omega
            rw [hfr_out m hmsub hm_ne, hfr_out _ hparnsub hpar_ne]
            exact hpre m hm hhi hgt
        · have hpr : (m - 1) / 2 = root := by omega
          rw [hpr, hfr_root]
          by_cases hmc : m = c
          · rw [hmc]
            exact hbnd
          · have hmsib : ¬ inSubtree c m := by
              rcases hc12 with h | h
              · have hm' : m = 2 * root + 2 := by omega
                rw [h, hm']
                exact not_inSubtree_sibling1 root
              · have hm' : m = 2 * root + 1 := by omega
                rw [h, hm']
                exact not_inSubtree_sibling2 root
            have hm_ne : m ≠ root := by omega
            rw [hfr_out m hmsib hm_ne]
            have := siftChild_max st first m hm hhi hpr
            rw [← hc] at this
            exact this

theorem heapBuild_perm (hi first : Nat) :
    ∀ (cn : Nat) (st : St),
      PermSt st (heapBuild cn st hi first) first (first + hi) := by
  intro cn
  induction cn with
  | zero => intro st; exact permSt_refl _ _ _
  | succ c ih =>
    intro st
    rw [heapBuild]
    refine permSt_trans (permSt_mono (siftDown_perm hi first (hi - c) st c) ?_ ?_)
      (ih _) <;> omega

theorem heapBuild_heap (hi first : Nat) :
    ∀ (cn : Nat) (st : St),
      (∀ m, 0 < m → m < hi → cn ≤ (m - 1) / 2 →
        key st (first + m) ≤ key st (first + (m - 1) / 2)) →
      ∀ m, 0 < m → m < hi →
        key (heapBuild cn st hi first) (first + m) ≤
          key (heapBuild cn st hi first) (first + (m - 1) / 2) := by
  intro cn
  induction cn with
  | zero =>
    intro st hpre m hm hhi
    rw [heapBuild]
    exact hpre m hm hhi (Nat.zero_le _)
  | succ c ih =>
    intro st hpre m hm hhi
    rw [heapBuild]
    refine ih _ ?_ m hm hhi
    intro m' hm' hhi' hpar'
    exact siftDown_heap hi first (hi - c) st c (le_refl _)
      (fun m'' h0 h1 h2 => hpre m'' h0 h1 (by omega)) m' hm' hhi' hpar'

theorem heapPop_perm (first : Nat) :
    ∀ (n : Nat) (st : St),
      PermSt st (heapPop n st first) first (first + n) := by
  intro n
  induction n with
  | zero => intro st; exact permSt_refl _ _ _
  | succ n ih =>
    intro st
    rw [heapPop]
    refine permSt_trans
      (permSt_swap st first (first + n) (by omega) (by omega) (by omega) (by omega)) ?_
    refine permSt_trans
      (permSt_mono (siftDown_perm n first n _ 0) (by omega) (by omega)) ?_
    exact permSt_mono (ih _) (le_refl _) (by omega)

theorem heapPop_sorted (first N : Nat) :
    ∀ (n : Nat) (st : St), n ≤ N →
      (∀ m, 0 < m → m < n → key st (first + m) ≤ key st (first + (m - 1) / 2)) →
      SortedSeg st (first + n) (first + N) →
      (∀ p q, p < n → n ≤ q → q < N →
        key st (first + p) ≤ key st (first + q)) →
      SortedSeg (heapPop n st first) first (first + N) := by
  intro n
  induction n with
  | zero =>
    intro st _ _ hTS _
    rw [heapPop]
    exact hTS
  | succ n ih =>
    intro st hnN hheap hTS hTB
    rw [heapPop]
    set sw := swapSt st first (first + n) with hsw
    set st2 := siftDown n sw 0 n first with hst2
    have hmax : ∀ m, m < n + 1 → key st (first + m) ≤ key st (first + 0) :=
      heap_max st first (n + 1) (fun m h1 h2 => hheap m h1 h2)
    have hsw_at : ∀ x, first < x → x ≠ first + n → sw x = st x := by
      intro x h1 h2
      rw [hsw, swapSt_other st (by omega) h2]
    have hsw_n : sw (first + n) = st first := by
      rw [hsw, swapSt_right]
    have hfr2 : ∀ x, first + n ≤ x → st2 x = sw x := by
      intro x hx
      exact permSt_frame (siftDown_perm n first n sw 0) x (by omega)
    -- the heap on the shortened prefix
    have hheap2 : ∀ m, 0 < m → m < n →
        key st2 (first + m) ≤ key st2 (first + (m - 1) / 2) := by
      intro m h0 h1
      refine siftDown_heap n first n sw 0 (le_refl n) ?_ m h0 h1 (Nat.zero_le _)
      intro m' h0' h1' h2'
      have hm'n : m' ≠ n := by omega
      simp only [key]
      rw [hsw_at (first + m') (by omega) (by omega),
        hsw_at (first + (m' - 1) / 2) ?_ ?_]
      · exact hheap m' h0' (by omega)
      · omega
      · omega
    -- the tail, one longer, is sorted
    have hTS2 : SortedSeg st2 (first + n) (first + N) := by
      intro i j hi hij hj
      rw [key, key, hfr2 i hi, hfr2 j (by omega)]
      by_cases hin : i = first + n
      · by_cases hjn : j = first + n
        · rw [hin, hjn]
        · rw [hin, hsw_n, hsw_at j (by omega) hjn]
          have := hTB 0 (j - first) (by omega) (by omega) (by omega)
          have he : first + (j - first) = j := by omega
          rw [he] at this
          exact this
      · rw [hsw_at i (by omega) hin, hsw_at j (by omega) (by omega)]
        exact hTS i j (by omega) hij hj
    -- every prefix value is below every tail value
    have hTB2 : ∀ p q, p < n → n ≤ q → q < N →
        key st2 (first + p) ≤ key st2 (first + q) := by
      intro p q hp hq1 hq2
      have hqv : st2 (first + q) = sw (first + q) := hfr2 _ (by omega)
      have hswb : ∀ x, first ≤ x → x < first + n →
          key sw x ≤ key sw (first + q) := by
        intro x hx1 hx2
        have hxval : key sw x ≤ key st (first + 0) := by
          by_cases hxf : x = first
          · simp only [key]
            rw [hxf, hsw, swapSt_left]
            exact hmax n (by omega)
          · simp only [key]
            rw [hsw_at x (by omega) (by omega)]
            have he : x = first + (x - first) := by omega
            rw [he]
            exact hmax (x - first) (by omega)
        by_cases hqn : q = n
        · simp only [key]
          rw [hqn, hsw_n]
          exact hxval
        · simp only [key]
          rw [hsw_at (first + q) (by omega) (by omega)]
          have hx0 : key st (first + 0) ≤ key st (first + q) := by
            have h1 := hTB 0 q (by omega) (by omega) hq2
            exact h1
          exact le_trans hxval hx0
      have hperm := siftDown_perm n first n sw 0
      have := @permSt_pred sw (siftDown n sw 0 n first) (first + 0) (first + n)
        (fun u => u.PartNumber ≤ key sw (first + q)) hperm
        (fun i h1 h2 => hswb i (by omega) (by omega)) (first + p)
        (by omega) (by omega)
      simp only [key]
      rw [hqv]
      exact this
    exact ih st2 (by omega) hheap2 hTS2 hTB2

theorem heapSort_perm (st : St) (a b : Nat) (hab : a ≤ b) :
    PermSt st (heapSort st a b) a b := by
  have hdef : heapSort st a b =
      heapPop (b - a) (heapBuild ((b - a - 1) / 2 + 1) st (b - a) a) a := rfl
  rw [hdef]
  have h1 := heapBuild_perm (b - a) a ((b - a - 1) / 2 + 1) st
  have h2 := heapPop_perm a (b - a) (heapBuild ((b - a - 1) / 2 + 1) st (b - a) a)
  have he : a + (b - a) = b := by omega
  rw [he] at h1 h2
  exact permSt_trans h1 h2

theorem heapSort_sorted (st : St) (a b : Nat) (hab : a ≤ b) :
    SortedSeg (heapSort st a b) a b := by
  have hdef : heapSort st a b =
      heapPop (b - a) (heapBuild ((b - a - 1) / 2 + 1) st (b - a) a) a := rfl
  rw [hdef]
  have hheap := heapBuild_heap (b - a) a ((b - a - 1) / 2 + 1) st
    (fun m h0 h1 h2 => absurd h2 (by omega))
  have hsorted := heapPop_sorted a (b - a) (b - a)
    (heapBuild ((b - a - 1) / 2 + 1) st (b - a) a) (le_refl _) hheap
    (fun i j hi hij hj => absurd hij (by omega))
    (fun p q hp hq1 hq2 => absurd hq1 (by omega))
  have he : a + (b - a) = b := by omega
  rw [he] at hsorted
  exact hsorted

/-! #### `doPivot` and `quickSort` -/

theorem lessSt_iff (st : St) (i j : Nat) :
    lessSt st i j = true ↔ key st i < key st j := by
  simp [lessSt, key]

theorem lessSt_false_iff (st : St) (i j : Nat) :
    lessSt st i j = false ↔ key st j ≤ key st i := by
  simp [lessSt, key]

theorem lessSt_congr (st st' : St) (i j i' j' : Nat)
    (h1 : st' i' = st i) (h2 : st' j' = st j) :
    lessSt st' i' j' = lessSt st i j := by
  simp only [lessSt, h1, h2]

theorem bool_eq_false {b : Bool} (h : ¬ b = true) : b = false := by
  cases b
  · rfl
  · exact absurd rfl h

theorem medianOfThree_perm (st : St) (m1 m0 m2 a b : Nat)
    (h1 : a ≤ m1) (h1' : m1 < b) (h0 : a ≤ m0) (h0' : m0 < b)
    (h2 : a ≤ m2) (h2' : m2 < b) :
    PermSt st (medianOfThree st m1 m0 m2) a b := by
  rw [medianOfThree]
  by_cases hA : lessSt st m1 m0 = true
  · rw [if_pos hA]
    by_cases hB : lessSt (swapSt st m1 m0) m2 m1 = true
    · rw [if_pos hB]
      by_cases hC : lessSt (swapSt (swapSt st m1 m0) m2 m1) m1 m0 = true
      · rw [if_pos hC]
        exact permSt_trans (permSt_swap st m1 m0 h1 h1' h0 h0')
          (permSt_trans (permSt_swap _ m2 m1 h2 h2' h1 h1')
            (permSt_swap _ m1 m0 h1 h1' h0 h0'))
      · rw [if_neg hC]
        exact permSt_trans (permSt_swap st m1 m0 h1 h1' h0 h0')
          (permSt_swap _ m2 m1 h2 h2' h1 h1')
    · rw [if_neg hB]
      exact permSt_swap st m1 m0 h1 h1' h0 h0'
  · rw [if_neg hA]
    by_cases hB : lessSt st m2 m1 = true
    · rw [if_pos hB]
      by_cases hC : lessSt (swapSt st m2 m1) m1 m0 = true
      · rw [if_pos hC]
        exact permSt_trans (permSt_swap st m2 m1 h2 h2' h1 h1')
          (permSt_swap _ m1 m0 h1 h1' h0 h0')
      · rw [if_neg hC]
        exact permSt_swap st m2 m1 h2 h2' h1 h1'
    · rw [if_neg hB]
      exact permSt_refl _ _ _

theorem medianOfThree_post (st : St) (m1 m0 m2 : Nat)
    (h10 : m1 ≠ m0) (h12 : m1 ≠ m2) (h02 : m0 ≠ m2) :
    key (medianOfThree st m1 m0 m2) m0 ≤ key (medianOfThree st m1 m0 m2) m1 ∧
    key (medianOfThree st m1 m0 m2) m1 ≤ key (medianOfThree st m1 m0 m2) m2 := by
  have h01 := Ne.symm h10
  have h21 := Ne.symm h12
  have h20 := Ne.symm h02
  rw [medianOfThree]
  by_cases hA : lessSt st m1 m0 = true
  · rw [if_pos hA]
    by_cases hB : lessSt (swapSt st m1 m0) m2 m1 = true
    · rw [if_pos hB]
      by_cases hC : lessSt (swapSt (swapSt st m1 m0) m2 m1) m1 m0 = true
      · rw [if_pos hC]
        simp only [lessSt, key, swapSt, decide_eq_true_eq] at hA hB hC ⊢
        simp only [h10, h12, h02, h01, h21, h20, if_true, if_false,
          ite_true, ite_false, if_neg, if_pos, ne_eq, not_false_eq_true] at hA hB hC ⊢
        constructor <;> omega
      · rw [if_neg hC]
        simp only [lessSt, key, swapSt, decide_eq_true_eq] at hA hB hC ⊢
        simp only [h10, h12, h02, h01, h21, h20, if_true, if_false,
          ite_true, ite_false, if_neg, if_pos, ne_eq, not_false_eq_true] at hA hB hC ⊢
        constructor <;> omega
    · rw [if_neg hB]
      simp only [lessSt, key, swapSt, decide_eq_true_eq] at hA hB ⊢
      simp only [h10, h12, h02, h01, h21, h20, if_true, if_false,
        ite_true, ite_false, if_neg, if_pos, ne_eq, not_false_eq_true] at hA hB ⊢
      constructor <;> omega
  · rw [if_neg hA]
    by_cases hB : lessSt st m2 m1 = true
    · rw [if_pos hB]
      by_cases hC : lessSt (swapSt st m2 m1) m1 m0 = true
      · rw [if_pos hC]
        simp only [lessSt, key, swapSt, decide_eq_true_eq] at hA hB hC ⊢
        simp only [h10, h12, h02, h01, h21, h20, if_true, if_false,
          ite_true, ite_false, if_neg, if_pos, ne_eq, not_false_eq_true] at hA hB hC ⊢
        constructor <;> omega
      · rw [if_neg hC]
        simp only [lessSt, key, swapSt, decide_eq_true_eq] at hA hB hC ⊢
        simp only [h10, h12, h02, h01, h21, h20, if_true, if_false,
          ite_true, ite_false, if_neg, if_pos, ne_eq, not_false_eq_true] at hA hB hC ⊢
        constructor <;> omega
    · rw [if_neg hB]
      simp only [lessSt, key, decide_eq_true_eq] at hA hB ⊢
      constructor <;> omega

theorem ninther_perm (st : St) (lo hi m a b : Nat)
    (hm : m = lo + (hi - lo) / 2) (ha : a ≤ lo) (hb : hi ≤ b)
    (hlh : lo + 2 < hi) :
    PermSt st (ninther st lo hi m) a b := by
  rw [ninther]
  by_cases h40 : hi - lo > 40
  · rw [if_pos h40]
    have hs : (hi - lo) / 8 ≤ (hi - lo) / 8 := le_refl _
    refine permSt_trans (medianOfThree_perm st lo (lo + (hi - lo) / 8)
      (lo + 2 * ((hi - lo) / 8)) a b (by omega) (by omega) (by omega)
      (by omega) (by omega) (by omega)) ?_
    refine permSt_trans (medianOfThree_perm _ m (m - (hi - lo) / 8)
      (m + (hi - lo) / 8) a b (by omega) (by omega) (by omega) (by omega)
      (by omega) (by omega)) ?_
    exact medianOfThree_perm _ (hi - 1) (hi - 1 - (hi - lo) / 8)
      (hi - 1 - 2 * ((hi - lo) / 8)) a b (by omega) (by omega) (by omega)
      (by omega) (by omega) (by omega)
  · rw [if_neg h40]
    exact permSt_refl _ _ _

theorem scanA_spec (pivot : Nat) :
    ∀ (f : Nat) (st : St) (a c : Nat), c - a ≤ f → a ≤ c →
      a ≤ scanA f st a c pivot ∧ scanA f st a c pivot ≤ c ∧
      (∀ i, a ≤ i → i < scanA f st a c pivot → lessSt st i pivot = true) ∧
      (scanA f st a c pivot < c → lessSt st (scanA f st a c pivot) pivot = false) := by
  intro f
  induction f with
  | zero =>
    intro st a c hf hac
    rw [scanA]
    exact ⟨le_refl _, hac, fun i h1 h2 => absurd h2 (by omega),
      fun h => absurd h (by omega)⟩
  | succ f ih =>
    intro st a c hf hac
    rw [scanA]
    by_cases hcond : a < c ∧ lessSt st a pivot
    · rw [if_pos hcond]
      obtain ⟨h1, h2, h3, h4⟩ := ih st (a + 1) c (by omega) (by omega)
      refine ⟨by omega, h2, ?_, h4⟩
      intro i hi1 hi2
      rcases Nat.eq_or_lt_of_le hi1 with he | hl
      · rw [← he]; exact hcond.2
      · exact h3 i hl hi2
    · rw [if_neg hcond]
      refine ⟨le_refl _, hac, fun i h1 h2 => absurd h2 (by omega), ?_⟩
      intro hlt
      refine bool_eq_false ?_
      intro htr
      exact hcond ⟨hlt, htr⟩

theorem scanB_spec (pivot : Nat) :
    ∀ (f : Nat) (st : St) (b c : Nat), c - b ≤ f → b ≤ c →
      b ≤ scanB f st b c pivot ∧ scanB f st b c pivot ≤ c ∧
      (∀ i, b ≤ i → i < scanB f st b c pivot → lessSt st pivot i = false) ∧
      (scanB f st b c pivot < c → lessSt st pivot (scanB f st b c pivot) = true) := by
  intro f
  induction f with
  | zero =>
    intro st b c hf hbc
    rw [scanB]
    exact ⟨le_refl _, hbc, fun i h1 h2 => absurd h2 (by omega),
      fun h => absurd h (by omega)⟩
  | succ f ih =>
    intro st b c hf hbc
    rw [scanB]
    by_cases hcond : b < c ∧ ¬ lessSt st pivot b
    · rw [if_pos hcond]
      obtain ⟨h1, h2, h3, h4⟩ := ih st (b + 1) c (by omega) (by omega)
      refine ⟨by omega, h2, ?_, h4⟩
      intro i hi1 hi2
      rcases Nat.eq_or_lt_of_le hi1 with he | hl
      · rw [← he]; exact bool_eq_false hcond.2
      · exact h3 i hl hi2
    · rw [if_neg hcond]
      refine ⟨le_refl _, hbc, fun i h1 h2 => absurd h2 (by omega), ?_⟩
      intro hlt
      by_contra hne
      exact hcond ⟨hlt, fun htr => hne htr⟩

theorem scanC_spec (pivot : Nat) :
    ∀ (f : Nat) (st : St) (b c : Nat), c - b ≤ f → b ≤ c →
      b ≤ scanC f st b c pivot ∧ scanC f st b c pivot ≤ c ∧
      (∀ i, scanC f st b c pivot ≤ i → i < c → lessSt st pivot i = true) ∧
      (b < scanC f st b c pivot → lessSt st pivot (scanC f st b c pivot - 1) = false) := by
  intro f
  induction f with
  | zero =>
    intro st b c hf hbc
    rw [scanC]
    exact ⟨hbc, le_refl _, fun i h1 h2 => absurd h2 (by omega),
      fun h => absurd h (by omega)⟩
  | succ f ih =>
    intro st b c hf hbc
    rw [scanC]
    by_cases hcond : b < c ∧ lessSt st pivot (c - 1)
    · rw [if_pos hcond]
      obtain ⟨h1, h2, h3, h4⟩ := ih st b (c - 1) (by omega) (by omega)
      refine ⟨h1, by omega, ?_, h4⟩
      intro i hi1 hi2
      by_cases hieq : i = c - 1
      · rw [hieq]; exact hcond.2
      · exact h3 i hi1 (by omega)
    · rw [if_neg hcond]
      refine ⟨hbc, le_refl _, fun i h1 h2 => absurd h2 (by omega), ?_⟩
      intro hlt
      refine bool_eq_false ?_
      intro htr
      exact hcond ⟨hlt, htr⟩

theorem scanBDown_spec (pivot : Nat) :
    ∀ (f : Nat) (st : St) (a b : Nat), b - a ≤ f → a ≤ b →
      a ≤ scanBDown f st a b pivot ∧ scanBDown f st a b pivot ≤ b ∧
      (∀ i, scanBDown f st a b pivot ≤ i → i < b → lessSt st i pivot = false) ∧
      (a < scanBDown f st a b pivot →
        lessSt st (scanBDown f st a b pivot - 1) pivot = true) := by
  intro f
  induction f with
  | zero =>
    intro st a b hf hab
    rw [scanBDown]
    exact ⟨hab, le_refl _, fun i h1 h2 => absurd h2 (by omega),
      fun h => absurd h (by omega)⟩
  | succ f ih =>
    intro st a b hf hab
    rw [scanBDown]
    by_cases hcond : a < b ∧ ¬ lessSt st (b - 1) pivot
    · rw [if_pos hcond]
      obtain ⟨h1, h2, h3, h4⟩ := ih st a (b - 1) (by omega) (by omega)
      refine ⟨h1, by omega, ?_, h4⟩
      intro i hi1 hi2
      by_cases hieq : i = b - 1
      · rw [hieq]; exact bool_eq_false hcond.2
      · exact h3 i hi1 (by omega)
    · rw [if_neg hcond]
      refine ⟨hab, le_refl _, fun i h1 h2 => absurd h2 (by omega), ?_⟩
      intro hlt
      by_contra hne
      exact hcond ⟨hlt, fun htr => hne htr⟩

theorem partLoop_succ (f : Nat) (st : St) (b c pivot : Nat) :
    partLoop (f + 1) st b c pivot =
      (if scanC (c - scanB (c - b) st b c pivot) st (scanB (c - b) st b c pivot)
            c pivot ≤ scanB (c - b) st b c pivot then
        (st, scanB (c - b) st b c pivot,
          scanC (c - scanB (c - b) st b c pivot) st (scanB (c - b) st b c pivot)
            c pivot)
      else
        partLoop f
          (swapSt st (scanB (c - b) st b c pivot)
            (scanC (c - scanB (c - b) st b c pivot) st
              (scanB (c - b) st b c pivot) c pivot - 1))
          (scanB (c - b) st b c pivot + 1)
          (scanC (c - scanB (c - b) st b c pivot) st (scanB (c - b) st b c pivot)
            c pivot - 1) pivot) := rfl

theorem partLoop_spec (pivot aa hi : Nat) :
    ∀ (f : Nat) (st : St) (b c : Nat), c - b ≤ f →
      pivot < aa → aa ≤ b → b ≤ c → c ≤ hi - 1 →
      (∀ i, aa ≤ i → i < b → lessSt st pivot i = false) →
      (∀ i, c ≤ i → i < hi - 1 → lessSt st pivot i = true) →
      PermSt st (partLoop f st b c pivot).1 b c ∧
      (partLoop f st b c pivot).2.1 = (partLoop f st b c pivot).2.2 ∧
      b ≤ (partLoop f st b c pivot).2.1 ∧
      (partLoop f st b c pivot).2.2 ≤ c ∧
      (∀ i, aa ≤ i → i < (partLoop f st b c pivot).2.1 →
        lessSt (partLoop f st b c pivot).1 pivot i = false) ∧
      (∀ i, (partLoop f st b c pivot).2.2 ≤ i → i < hi - 1 →
        lessSt (partLoop f st b c pivot).1 pivot i = true) := by
  intro f
  induction f with
  | zero =>
    intro st b c hf hpa hab hbc hch hP2 hP4
    rw [partLoop]
    exact ⟨permSt_refl _ _ _, (by omega : b = c), le_refl b, le_refl c, hP2, hP4⟩
  | succ f ih =>
    intro st b c hf hpa hab hbc hch hP2 hP4
    rw [partLoop_succ]
    set b2 := scanB (c - b) st b c pivot with hb2
    set c2 := scanC (c - b2) st b2 c pivot with hc2
    obtain ⟨hB1, hB2, hB3, hB4⟩ := scanB_spec pivot (c - b) st b c (le_refl _) hbc
    rw [← hb2] at hB1 hB2 hB3 hB4
    obtain ⟨hC1, hC2, hC3, hC4⟩ := scanC_spec pivot (c - b2) st b2 c (le_refl _) hB2
    rw [← hc2] at hC1 hC2 hC3 hC4
    by_cases hex : c2 ≤ b2
    · rw [if_pos hex]
      refine ⟨permSt_refl _ _ _, (by omega : b2 = c2), hB1, hC2, ?_, ?_⟩
      · intro i h1 h2
        by_cases hib : i < b
        · exact hP2 i h1 hib
        · exact hB3 i (by omega) h2
      · intro i h1 h2
        by_cases hic : c ≤ i
        · exact hP4 i hic h2
        · exact hC3 i h1 (by omega)
    · rw [if_neg hex]
      have hlt : b2 < c2 := by omega
      have hLb : lessSt st pivot b2 = true := hB4 (by omega)
      have hLc : lessSt st pivot (c2 - 1) = false := hC4 hlt
      have hne : b2 ≠ c2 - 1 := by
        intro he
        rw [← he] at hLc
        rw [hLb] at hLc
        cases hLc
      have hgap : b2 + 2 ≤ c2 := by omega
      have hpivb2 : pivot < b2 := by omega
      have hswp : swapSt st b2 (c2 - 1) pivot = st pivot :=
        swapSt_other st (by omega) (by omega)
      have hreg1 : ∀ i, aa ≤ i → i < b2 + 1 →
          lessSt (swapSt st b2 (c2 - 1)) pivot i = false := by
        intro i h1 h2
        by_cases hib2 : i = b2
        · rw [hib2]
          rw [lessSt_congr st (swapSt st b2 (c2 - 1)) pivot (c2 - 1) pivot b2
            hswp (swapSt_left st b2 (c2 - 1))]
          exact hLc
        · rw [lessSt_congr st (swapSt st b2 (c2 - 1)) pivot i pivot i hswp
            (swapSt_other st (by omega) (by omega))]
          by_cases hib : i < b
          · exact hP2 i h1 hib
          · exact hB3 i (by omega) (by omega)
      have hreg2 : ∀ i, c2 - 1 ≤ i → i < hi - 1 →
          lessSt (swapSt st b2 (c2 - 1)) pivot i = true := by
        intro i h1 h2
        by_cases hic2 : i = c2 - 1
        · rw [hic2]
          rw [lessSt_congr st (swapSt st b2 (c2 - 1)) pivot b2 pivot (c2 - 1)
            hswp (swapSt_right st b2 (c2 - 1))]
          exact hLb
        · rw [lessSt_congr st (swapSt st b2 (c2 - 1)) pivot i pivot i hswp
            (swapSt_other st (by omega) (by omega))]
          by_cases hic : c ≤ i
          · exact hP4 i hic h2
          · exact hC3 i (by omega) (by omega)
      obtain ⟨hq1, hq2, hq3, hq4, hq5, hq6⟩ :=
        ih (swapSt st b2 (c2 - 1)) (b2 + 1) (c2 - 1) (by omega) hpa (by omega)
          (by omega) (by omega) hreg1 hreg2
      refine ⟨?_, hq2, by omega, by omega, hq5, hq6⟩
      refine permSt_trans
        (permSt_swap st b2 (c2 - 1) (by omega) (by omega) (by omega)
          (by omega)) ?_
      exact permSt_mono hq1 (by omega) (by omega)

theorem protectLoop_succ (f : Nat) (st : St) (a b pivot : Nat) :
    protectLoop (f + 1) st a b pivot =
      (if scanA (scanBDown (b - a) st a b pivot - a) st a
            (scanBDown (b - a) st a b pivot) pivot ≥
          scanBDown (b - a) st a b pivot then
        (st, scanA (scanBDown (b - a) st a b pivot - a) st a
            (scanBDown (b - a) st a b pivot) pivot,
          scanBDown (b - a) st a b pivot)
      else
        protectLoop f
          (swapSt st
            (scanA (scanBDown (b - a) st a b pivot - a) st a
              (scanBDown (b - a) st a b pivot) pivot)
            (scanBDown (b - a) st a b pivot - 1))
          (scanA (scanBDown (b - a) st a b pivot - a) st a
            (scanBDown (b - a) st a b pivot) pivot + 1)
          (scanBDown (b - a) st a b pivot - 1) pivot) := rfl

theorem protectLoop_spec (pivot aa cc : Nat) :
    ∀ (f : Nat) (st : St) (a b : Nat), b - a ≤ f →
      pivot < aa → aa ≤ a → a ≤ b → b ≤ cc →
      (∀ i, aa ≤ i → i < a → lessSt st i pivot = true) →
      (∀ i, a ≤ i → i < b → lessSt st pivot i = false) →
      (∀ i, b ≤ i → i < cc →
        lessSt st pivot i = false ∧ lessSt st i pivot = false) →
      PermSt st (protectLoop f st a b pivot).1 a b ∧
      (protectLoop f st a b pivot).2.1 = (protectLoop f st a b pivot).2.2 ∧
      a ≤ (protectLoop f st a b pivot).2.1 ∧
      (protectLoop f st a b pivot).2.2 ≤ b ∧
      (∀ i, aa ≤ i → i < (protectLoop f st a b pivot).2.1 →
        lessSt (protectLoop f st a b pivot).1 i pivot = true) ∧
      (∀ i, (protectLoop f st a b pivot).2.2 ≤ i → i < cc →
        lessSt (protectLoop f st a b pivot).1 pivot i = false ∧
        lessSt (protectLoop f st a b pivot).1 i pivot = false) := by
  intro f
  induction f with
  | zero =>
    intro st a b hf hpa haa hab hbc hP1 hP2 hP3
    rw [protectLoop]
    exact ⟨permSt_refl _ _ _, (by omega : a = b), le_refl a, le_refl b, hP1, hP3⟩
  | succ f ih =>
    intro st a b hf hpa haa hab hbc hP1 hP2 hP3
    rw [protectLoop_succ]
    set b2 := scanBDown (b - a) st a b pivot with hb2
    set a2 := scanA (b2 - a) st a b2 pivot with ha2
    obtain ⟨hB1, hB2, hB3, hB4⟩ :=
      scanBDown_spec pivot (b - a) st a b (le_refl _) hab
    rw [← hb2] at hB1 hB2 hB3 hB4
    obtain ⟨hA1, hA2, hA3, hA4⟩ := scanA_spec pivot (b2 - a) st a b2 (le_refl _) hB1
    rw [← ha2] at hA1 hA2 hA3 hA4
    have hmid : ∀ i, b2 ≤ i → i < cc →
        lessSt st pivot i = false ∧ lessSt st i pivot = false := by
      intro i h1 h2
      by_cases hib : i < b
      · exact ⟨hP2 i (by omega) hib, hB3 i h1 hib⟩
      · exact hP3 i (by omega) h2
    by_cases hex : b2 ≤ a2
    · rw [if_pos hex]
      refine ⟨permSt_refl _ _ _, (by omega : a2 = b2), hA1, hB2, ?_, ?_⟩
      · intro i h1 h2
        by_cases hia : i < a
        · exact hP1 i h1 hia
        · exact hA3 i (by omega) h2
      · exact hmid
    · rw [if_neg hex]
      have hlt : a2 < b2 := by omega
      have hal : lessSt st a2 pivot = false := hA4 hlt
      have hbl : lessSt st (b2 - 1) pivot = true := hB4 (by omega)
      have hne : a2 ≠ b2 - 1 := by
        intro he
        rw [← he] at hbl
        rw [hbl] at hal
        cases hal
      have hgap : a2 + 2 ≤ b2 := by omega
      have hpva2 : lessSt st pivot a2 = false := hP2 a2 hA1 (by omega)
      have hswp : swapSt st a2 (b2 - 1) pivot = st pivot :=
        swapSt_other st (by omega) (by omega)
      have hreg1 : ∀ i, aa ≤ i → i < a2 + 1 →
          lessSt (swapSt st a2 (b2 - 1)) i pivot = true := by
        intro i h1 h2
        by_cases hia2 : i = a2
        · rw [hia2]
          rw [lessSt_congr st (swapSt st a2 (b2 - 1)) (b2 - 1) pivot a2 pivot
            (swapSt_left st a2 (b2 - 1)) hswp]
          exact hbl
        · rw [lessSt_congr st (swapSt st a2 (b2 - 1)) i pivot i pivot
            (swapSt_other st (by omega) (by omega)) hswp]
          by_cases hia : i < a
          · exact hP1 i h1 hia
          · exact hA3 i (by omega) (by omega)
      have hreg2 : ∀ i, a2 + 1 ≤ i → i < b2 - 1 →
          lessSt (swapSt st a2 (b2 - 1)) pivot i = false := by
        intro i h1 h2
        rw [lessSt_congr st (swapSt st a2 (b2 - 1)) pivot i pivot i hswp
          (swapSt_other st (by omega) (by omega))]
        exact hP2 i (by omega) (by omega)
      have hreg3 : ∀ i, b2 - 1 ≤ i → i < cc →
          lessSt (swapSt st a2 (b2 - 1)) pivot i = false ∧
          lessSt (swapSt st a2 (b2 - 1)) i pivot = false := by
        intro i h1 h2
        by_cases hib2 : i = b2 - 1
        · rw [hib2]
          constructor
          · rw [lessSt_congr st (swapSt st a2 (b2 - 1)) pivot a2 pivot (b2 - 1)
              hswp (swapSt_right st a2 (b2 - 1))]
            exact hpva2
          · rw [lessSt_congr st (swapSt st a2 (b2 - 1)) a2 pivot (b2 - 1) pivot
              (swapSt_right st a2 (b2 - 1)) hswp]
            exact hal
        · have hfr : swapSt st a2 (b2 - 1) i = st i :=
            swapSt_other st (by omega) (by omega)
          constructor
          · rw [lessSt_congr st (swapSt st a2 (b2 - 1)) pivot i pivot i hswp hfr]
            exact (hmid i (by omega) h2).1
          · rw [lessSt_congr st (swapSt st a2 (b2 - 1)) i pivot i pivot hfr hswp]
            exact (hmid i (by omega) h2).2
      obtain ⟨hq1, hq2, hq3, hq4, hq5, hq6⟩ :=
        ih (swapSt st a2 (b2 - 1)) (a2 + 1) (b2 - 1) (by omega) hpa (by omega)
          (by omega) (by omega) hreg1 hreg2 hreg3
      refine ⟨?_, hq2, by omega, by omega, hq5, hq6⟩
      refine permSt_trans
        (permSt_swap st a2 (b2 - 1) (by omega) (by omega) (by omega)
          (by omega)) ?_
      exact permSt_mono hq1 (by omega) (by omega)

theorem lessSt_asymm {st : St} {i j : Nat} (h : lessSt st i j = true) :
    lessSt st j i = false := by
  rw [lessSt_iff] at h
  rw [lessSt_false_iff]
  omega

theorem dupsBlock_spec (lo hi m a c : Nat) (stp : St)
    (h13 : hi - lo > 12) (ha1 : lo + 1 ≤ a) (hac : a ≤ c) (hch : c ≤ hi - 1)
    (hc5 : 5 ≤ hi - c) (hc4 : hi - c < (hi - lo) / 4)
    (hm : m = lo + (hi - lo) / 2)
    (P1 : ∀ i, lo + 1 ≤ i → i < a → lessSt stp i lo = true)
    (P2 : ∀ i, a ≤ i → i < c → lessSt stp lo i = false)
    (P4s : ∀ i, c ≤ i → i < hi - 1 → lessSt stp lo i = true)
    (Phi : lessSt stp (hi - 1) lo = false)
    (Pm : lessSt stp lo m = false) :
    PermSt stp (dupsBlock stp lo m hi c c).1 (lo + 1) hi ∧
    a ≤ (dupsBlock stp lo m hi c c).2.1 ∧
    (dupsBlock stp lo m hi c c).2.1 ≤ (dupsBlock stp lo m hi c c).2.2.1 ∧
    (dupsBlock stp lo m hi c c).2.2.1 ≤ hi ∧
    (∀ i, lo + 1 ≤ i → i < a →
      lessSt (dupsBlock stp lo m hi c c).1 i lo = true) ∧
    (∀ i, a ≤ i → i < (dupsBlock stp lo m hi c c).2.1 →
      lessSt (dupsBlock stp lo m hi c c).1 lo i = false) ∧
    (∀ i, (dupsBlock stp lo m hi c c).2.1 ≤ i →
      i < (dupsBlock stp lo m hi c c).2.2.1 →
      lessSt (dupsBlock stp lo m hi c c).1 lo i = false ∧
      lessSt (dupsBlock stp lo m hi c c).1 i lo = false) ∧
    (∀ i, (dupsBlock stp lo m hi c c).2.2.1 ≤ i → i < hi →
      lessSt (dupsBlock stp lo m hi c c).1 i lo = false) := by
  have hc10 : lo + 10 ≤ c := by omega
  have hm6 : lo + 6 ≤ m := by omega
  have hmc : m + 2 ≤ c := by omega
  set r3 := (if ¬ lessSt stp lo (hi - 1) then (swapSt stp c (hi - 1), c + 1, 1)
    else (stp, c, 0) : St × Nat × Nat) with hr3def
  set r4 := (if ¬ lessSt r3.1 (c - 1) lo then (c - 1, r3.2.2 + 1)
    else (c, r3.2.2) : Nat × Nat) with hr4def
  have hu : dupsBlock stp lo m hi c c =
      (if ¬ lessSt r3.1 m lo then
        (swapSt r3.1 m (r4.1 - 1), r4.1 - 1, r3.2.1, r4.2 + 1)
      else (r3.1, r4.1, r3.2.1, r4.2)) := rfl
  -- stage A: the hi-1 test
  have hA : (r3.1 = swapSt stp c (hi - 1) ∧ r3.2.1 = c + 1 ∧
        lessSt stp lo (hi - 1) = false) ∨
      (r3.1 = stp ∧ r3.2.1 = c ∧ lessSt stp lo (hi - 1) = true) := by
    by_cases hc1 : lessSt stp lo (hi - 1) = true
    · right
      rw [hr3def, if_neg (fun hcon => hcon hc1)]
      exact ⟨rfl, rfl, hc1⟩
    · left
      rw [hr3def, if_pos hc1]
      exact ⟨rfl, rfl, bool_eq_false hc1⟩
  have hAB : (r4.1 = c - 1 ∧ lessSt r3.1 (c - 1) lo = false) ∨
      (r4.1 = c ∧ lessSt r3.1 (c - 1) lo = true) := by
    by_cases hc2 : lessSt r3.1 (c - 1) lo = true
    · right
      rw [hr4def, if_neg (fun hcon => hcon hc2)]
      exact ⟨rfl, hc2⟩
    · left
      rw [hr4def, if_pos hc2]
      exact ⟨rfl, bool_eq_false hc2⟩
  clear_value r3 r4
  have hB : c ≤ r3.2.1 ∧ r3.2.1 ≤ hi ∧ r3.1 lo = stp lo ∧ r3.1 m = stp m ∧
      (∀ i, lo + 1 ≤ i → i < a → lessSt r3.1 i lo = true) ∧
      (∀ i, a ≤ i → i < c → lessSt r3.1 lo i = false) ∧
      (∀ i, c ≤ i → i < r3.2.1 →
        lessSt r3.1 lo i = false ∧ lessSt r3.1 i lo = false) ∧
      (∀ i, r3.2.1 ≤ i → i < hi → lessSt r3.1 i lo = false) ∧
      PermSt stp r3.1 (lo + 1) hi := by
    rcases hA with ⟨h31, h32, hc1⟩ | ⟨h31, h32, hc1⟩
    · have hlo : r3.1 lo = stp lo := by
        rw [h31]; exact swapSt_other stp (by omega) (by omega)
      have hm' : r3.1 m = stp m := by
        rw [h31]; exact swapSt_other stp (by omega) (by omega)
      refine ⟨by omega, by omega, hlo, hm', ?_, ?_, ?_, ?_, ?_⟩
      · intro i h1 h2
        rw [lessSt_congr stp r3.1 i lo i lo
          (by rw [h31]; exact swapSt_other stp (by omega) (by omega)) hlo]
        exact P1 i h1 h2
      · intro i h1 h2
        rw [lessSt_congr stp r3.1 lo i lo i hlo
          (by rw [h31]; exact swapSt_other stp (by omega) (by omega))]
        exact P2 i h1 h2
      · intro i h1 h2
        have hieq : i = c := by omega
        rw [hieq]
        have hcv : r3.1 c = stp (hi - 1) := by
          rw [h31]; exact swapSt_left stp c (hi - 1)
        constructor
        · rw [lessSt_congr stp r3.1 lo (hi - 1) lo c hlo hcv]
          exact hc1
        · rw [lessSt_congr stp r3.1 (hi - 1) lo c lo hcv hlo]
          exact Phi
      · intro i h1 h2
        by_cases hihi : i = hi - 1
        · have hcv : r3.1 (hi - 1) = stp c := by
            rw [h31]; exact swapSt_right stp c (hi - 1)
          rw [hihi]
          rw [lessSt_congr stp r3.1 c lo (hi - 1) lo hcv hlo]
          exact lessSt_asymm (P4s c (le_refl c) (by omega))
        · rw [lessSt_congr stp r3.1 i lo i lo
            (by rw [h31]; exact swapSt_other stp (by omega) (by omega)) hlo]
          exact lessSt_asymm (P4s i (by omega) (by omega))
      · rw [h31]
        exact permSt_swap stp c (hi - 1) (by omega) (by omega) (by omega)
          (by omega)
    · rw [h31, h32]
      refine ⟨le_refl c, by omega, rfl, rfl, P1, P2,
        fun i h1 h2 => absurd h2 (by omega), ?_, permSt_refl _ _ _⟩
      intro i h1 h2
      by_cases hihi : i = hi - 1
      · rw [hihi]; exact Phi
      · exact lessSt_asymm (P4s i h1 (by omega))
  obtain ⟨hB1, hB2, hBlo, hBm, hBP1, hBP2, hBP3, hBP4, hBperm⟩ := hB
  -- stage B: the b-1 test
  have hC : a ≤ r4.1 ∧ r4.1 ≤ c ∧
      (∀ i, a ≤ i → i < r4.1 → lessSt r3.1 lo i = false) ∧
      (∀ i, r4.1 ≤ i → i < r3.2.1 →
        lessSt r3.1 lo i = false ∧ lessSt r3.1 i lo = false) := by
    rcases hAB with ⟨h41, hc2⟩ | ⟨h41, hc2⟩
    · have hacm : a ≤ c - 1 := by
        by_contra hcon
        have h1 := hBP1 (c - 1) (by omega) (by omega)
        rw [h1] at hc2
        cases hc2
      refine ⟨by omega, by omega, ?_, ?_⟩
      · intro i h1 h2
        exact hBP2 i h1 (by omega)
      · intro i h1 h2
        rw [h41] at h1
        by_cases hie : i = c - 1
        · rw [hie]
          exact ⟨hBP2 (c - 1) hacm (by omega), hc2⟩
        · exact hBP3 i (by omega) h2
    · rw [h41]
      exact ⟨hac, le_refl c, fun i h1 h2 => hBP2 i h1 h2, hBP3⟩
  obtain ⟨hC1, hC2, hC3, hC4⟩ := hC
  -- stage C: the m test
  by_cases hc3 : lessSt r3.1 m lo = true
  · have hEq : dupsBlock stp lo m hi c c = (r3.1, r4.1, r3.2.1, r4.2) := by
      rw [hu, if_neg (fun hcon => hcon hc3)]
    rw [hEq]
    refine ⟨hBperm, hC1, ?_, hB2, hBP1, hC3, hC4, hBP4⟩
    show r4.1 ≤ r3.2.1
    omega
  · have hc3f : lessSt r3.1 m lo = false := bool_eq_false hc3
    have hPm3 : lessSt r3.1 lo m = false := by
      rw [lessSt_congr stp r3.1 lo m lo m hBlo hBm]
      exact Pm
    have ham : a ≤ m := by
      by_contra hcon
      have h1 := hBP1 m (by omega) (by omega)
      rw [h1] at hc3f
      cases hc3f
    have hm41 : m ≤ r4.1 - 1 := by omega
    have hEq : dupsBlock stp lo m hi c c =
        (swapSt r3.1 m (r4.1 - 1), r4.1 - 1, r3.2.1, r4.2 + 1) := by
      rw [hu, if_pos hc3]
    rw [hEq]
    have hlo5 : swapSt r3.1 m (r4.1 - 1) lo = r3.1 lo :=
      swapSt_other r3.1 (by omega) (by omega)
    refine ⟨?_, ?_, ?_, hB2, ?_, ?_, ?_, ?_⟩
    · refine permSt_trans hBperm ?_
      exact permSt_swap r3.1 m (r4.1 - 1) (by omega) (by omega) (by omega)
        (by omega)
    · show a ≤ r4.1 - 1
      omega
    · show r4.1 - 1 ≤ r3.2.1
      omega
    · show ∀ i, lo + 1 ≤ i → i < a →
        lessSt (swapSt r3.1 m (r4.1 - 1)) i lo = true
      intro i h1 h2
      rw [lessSt_congr r3.1 (swapSt r3.1 m (r4.1 - 1)) i lo i lo
        (swapSt_other r3.1 (by omega) (by omega)) hlo5]
      exact hBP1 i h1 h2
    · show ∀ i, a ≤ i → i < r4.1 - 1 →
        lessSt (swapSt r3.1 m (r4.1 - 1)) lo i = false
      intro i h1 h2
      by_cases hie : i = m
      · rw [hie]
        rw [lessSt_congr r3.1 (swapSt r3.1 m (r4.1 - 1)) lo (r4.1 - 1) lo m
          hlo5 (swapSt_left r3.1 m (r4.1 - 1))]
        exact hC3 (r4.1 - 1) (by omega) (by omega)
      · rw [lessSt_congr r3.1 (swapSt r3.1 m (r4.1 - 1)) lo i lo i hlo5
          (swapSt_other r3.1 (by omega) (by omega))]
        exact hC3 i h1 (by omega)
    · show ∀ i, r4.1 - 1 ≤ i → i < r3.2.1 →
        lessSt (swapSt r3.1 m (r4.1 - 1)) lo i = false ∧
        lessSt (swapSt r3.1 m (r4.1 - 1)) i lo = false
      intro i h1 h2
      by_cases hie : i = r4.1 - 1
      · rw [hie]
        have hv : swapSt r3.1 m (r4.1 - 1) (r4.1 - 1) = r3.1 m :=
          swapSt_right r3.1 m (r4.1 - 1)
        constructor
        · rw [lessSt_congr r3.1 (swapSt r3.1 m (r4.1 - 1)) lo m lo (r4.1 - 1)
            hlo5 hv]
          exact hPm3
        · rw [lessSt_congr r3.1 (swapSt r3.1 m (r4.1 - 1)) m lo (r4.1 - 1) lo
            hv hlo5]
          exact hc3f
      · have hfr : swapSt r3.1 m (r4.1 - 1) i = r3.1 i :=
          swapSt_other r3.1 (by omega) (by omega)
        constructor
        · rw [lessSt_congr r3.1 (swapSt r3.1 m (r4.1 - 1)) lo i lo i hlo5 hfr]
          exact (hC4 i (by omega) h2).1
        · rw [lessSt_congr r3.1 (swapSt r3.1 m (r4.1 - 1)) i lo i lo hfr hlo5]
          exact (hC4 i (by omega) h2).2
    · show ∀ i, r3.2.1 ≤ i → i < hi →
        lessSt (swapSt r3.1 m (r4.1 - 1)) i lo = false
      intro i h1 h2
      rw [lessSt_congr r3.1 (swapSt r3.1 m (r4.1 - 1)) i lo i lo
        (swapSt_other r3.1 (by omega) (by omega)) hlo5]
      exact hBP4 i h1 h2

theorem key_swapSt_other (st : St) {i j p : Nat} (h1 : p ≠ i) (h2 : p ≠ j) :
    key (swapSt st i j) p = key st p := by
  rw [key, swapSt_other st h1 h2, key]

theorem key_swapSt_left (st : St) (i j : Nat) :
    key (swapSt st i j) i = key st j := by
  rw [key, swapSt_left, key]

theorem key_swapSt_right (st : St) (i j : Nat) :
    key (swapSt st i j) j = key st i := by
  rw [key, swapSt_right, key]

theorem pivotFinish_spec (lo hi a c : Nat) (stM : St) (b : Nat)
    (r6 : St × Nat × Nat)
    (hr6 : r6 = protectLoop (b - a) stM a b lo ∨ r6 = (stM, a, b))
    (h1 : lo + 1 ≤ a) (h2 : a ≤ b) (h3 : b ≤ c) (h4 : c ≤ hi)
    (P1 : ∀ i, lo + 1 ≤ i → i < a → lessSt stM i lo = true)
    (P2 : ∀ i, a ≤ i → i < b → lessSt stM lo i = false)
    (P3 : ∀ i, b ≤ i → i < c →
      lessSt stM lo i = false ∧ lessSt stM i lo = false)
    (P4 : ∀ i, c ≤ i → i < hi → lessSt stM i lo = false) :
    lo ≤ r6.2.2 - 1 ∧ r6.2.2 - 1 < c ∧
    PermSt stM (swapSt r6.1 lo (r6.2.2 - 1)) lo hi ∧
    (∀ i, lo ≤ i → i < r6.2.2 - 1 →
      key (swapSt r6.1 lo (r6.2.2 - 1)) i ≤
        key (swapSt r6.1 lo (r6.2.2 - 1)) (r6.2.2 - 1)) ∧
    (∀ i, r6.2.2 - 1 ≤ i → i < c →
      key (swapSt r6.1 lo (r6.2.2 - 1)) i =
        key (swapSt r6.1 lo (r6.2.2 - 1)) (r6.2.2 - 1)) ∧
    (∀ i, c ≤ i → i < hi →
      key (swapSt r6.1 lo (r6.2.2 - 1)) (r6.2.2 - 1) ≤
        key (swapSt r6.1 lo (r6.2.2 - 1)) i) := by
  have hF : PermSt stM r6.1 lo hi ∧ lo + 1 ≤ r6.2.2 ∧ r6.2.2 ≤ b ∧
      (∀ i, lo + 1 ≤ i → i < r6.2.2 → lessSt r6.1 lo i = false) ∧
      (∀ i, r6.2.2 ≤ i → i < c →
        lessSt r6.1 lo i = false ∧ lessSt r6.1 i lo = false) ∧
      (∀ i, c ≤ i → i < hi → lessSt r6.1 i lo = false) := by
    rcases hr6 with he | he
    · obtain ⟨hq1, hq2, hq3, hq4, hq5, hq6⟩ :=
        protectLoop_spec lo (lo + 1) c (b - a) stM a b (le_refl _)
          (by omega) h1 h2 h3 P1 P2 P3
      rw [← he] at hq1 hq2 hq3 hq4 hq5 hq6
      refine ⟨permSt_mono hq1 (by omega) (by omega), by omega, by omega,
        ?_, hq6, ?_⟩
      · intro i hi1 hi2
        exact lessSt_asymm (hq5 i hi1 (by omega))
      · intro i hi1 hi2
        have hfr1 : r6.1 i = stM i := permSt_frame hq1 i (by omega)
        have hfr2 : r6.1 lo = stM lo := permSt_frame hq1 lo (by omega)
        rw [lessSt_congr stM r6.1 i lo i lo hfr1 hfr2]
        exact P4 i hi1 hi2
    · have h1v : r6.1 = stM := by rw [he]
      have h22 : r6.2.2 = b := by rw [he]
      rw [h1v, h22]
      refine ⟨permSt_refl _ _ _, by omega, le_refl b, ?_, P3, P4⟩
      intro i hi1 hi2
      by_cases hia : i < a
      · exact lessSt_asymm (P1 i hi1 hia)
      · exact P2 i (by omega) hi2
  obtain ⟨F0, F1, F2, F3, F4, F5⟩ := hF
  have hlohi : lo < hi := by omega
  have hpvv : key (swapSt r6.1 lo (r6.2.2 - 1)) (r6.2.2 - 1) = key r6.1 lo := by
    rw [key, swapSt_right, key]
  refine ⟨by omega, by omega, ?_, ?_, ?_, ?_⟩
  · refine permSt_trans F0 ?_
    exact permSt_swap r6.1 lo (r6.2.2 - 1) (le_refl lo) hlohi (by omega)
      (by omega)
  · intro i hi1 hi2
    rw [hpvv]
    by_cases hil : i = lo
    · rw [hil, key_swapSt_left]
      have := F3 (r6.2.2 - 1) (by omega) (by omega)
      rw [lessSt_false_iff] at this
      exact this
    · rw [key_swapSt_other r6.1 (by omega) (by omega)]
      have := F3 i (by omega) (by omega)
      rw [lessSt_false_iff] at this
      exact this
  · intro i hi1 hi2
    by_cases hie : i = r6.2.2 - 1
    · rw [hie]
    · rw [hpvv, key_swapSt_other r6.1 (by omega) (by omega)]
      have hp := F4 i (by omega) hi2
      have hp1 := hp.1
      have hp2 := hp.2
      rw [lessSt_false_iff] at hp1 hp2
      omega
  · intro i hi1 hi2
    rw [hpvv, key_swapSt_other r6.1 (by omega) (by omega)]
    have := F5 i hi1 hi2
    rw [lessSt_false_iff] at this
    exact this

theorem doPivot_spec (st : St) (lo hi : Nat) (h13 : hi - lo > 12) :
    PermSt st (doPivot st lo hi).1 lo hi ∧
    lo ≤ (doPivot st lo hi).2.1 ∧
    (doPivot st lo hi).2.1 < (doPivot st lo hi).2.2 ∧
    (doPivot st lo hi).2.2 ≤ hi ∧
    (∀ i, lo ≤ i → i < (doPivot st lo hi).2.1 →
      key (doPivot st lo hi).1 i ≤
        key (doPivot st lo hi).1 (doPivot st lo hi).2.1) ∧
    (∀ i, (doPivot st lo hi).2.1 ≤ i → i < (doPivot st lo hi).2.2 →
      key (doPivot st lo hi).1 i =
        key (doPivot st lo hi).1 (doPivot st lo hi).2.1) ∧
    (∀ i, (doPivot st lo hi).2.2 ≤ i → i < hi →
      key (doPivot st lo hi).1 (doPivot st lo hi).2.1 ≤
        key (doPivot st lo hi).1 i) := by
  set m := lo + (hi - lo) / 2 with hm
  set stA := medianOfThree (ninther st lo hi m) lo m (hi - 1) with hstA
  set a := scanA (hi - 1 - (lo + 1)) stA (lo + 1) (hi - 1) lo with ha
  set r := partLoop (hi - 1 - a) stA a (hi - 1) lo with hr
  set r2 := (if ¬ (hi - r.2.2 < 5) ∧ hi - r.2.2 < (hi - lo) / 4 then
      ((dupsBlock r.1 lo m hi r.2.1 r.2.2).1,
       (dupsBlock r.1 lo m hi r.2.1 r.2.2).2.1,
       (dupsBlock r.1 lo m hi r.2.1 r.2.2).2.2.1,
       decide ((dupsBlock r.1 lo m hi r.2.1 r.2.2).2.2.2 > 1))
    else (r.1, r.2.1, r.2.2, decide (hi - r.2.2 < 5)) : St × Nat × Nat × Bool)
    with hr2
  set r6 := (if r2.2.2.2 then protectLoop (r2.2.1 - a) r2.1 a r2.2.1 lo
    else (r2.1, a, r2.2.1) : St × Nat × Nat) with hr6
  have hgoal : doPivot st lo hi =
      (swapSt r6.1 lo (r6.2.2 - 1), r6.2.2 - 1, r2.2.2.1) := rfl
  -- pivot choice
  have hpermA : PermSt st stA lo hi := by
    rw [hstA]
    refine permSt_trans (ninther_perm st lo hi m lo hi hm (le_refl lo)
      (le_refl hi) (by omega)) ?_
    exact medianOfThree_perm _ lo m (hi - 1) lo hi (le_refl lo) (by omega)
      (by omega) (by omega) (by omega) (by omega)
  have hmed := medianOfThree_post (ninther st lo hi m) lo m (hi - 1)
    (by omega) (by omega) (by omega)
  rw [← hstA] at hmed
  have hPhiA : lessSt stA (hi - 1) lo = false := by
    rw [lessSt_false_iff]
    exact hmed.2
  have hPmA : lessSt stA lo m = false := by
    rw [lessSt_false_iff]
    exact hmed.1
  -- initial scan
  obtain ⟨hA1, hA2, hA3, hA4⟩ :=
    scanA_spec lo (hi - 1 - (lo + 1)) stA (lo + 1) (hi - 1) (le_refl _)
      (by omega)
  rw [← ha] at hA1 hA2 hA3 hA4
  -- partition loop
  obtain ⟨hq1, hq2, hq3, hq4, hq5, hq6⟩ :=
    partLoop_spec lo a hi (hi - 1 - a) stA a (hi - 1) (le_refl _) (by omega)
      (le_refl a) hA2 (le_refl _) (fun i h1 h2 => absurd h2 (by omega))
      (fun i h1 h2 => absurd h1 (by omega))
  rw [← hr] at hq1 hq2 hq3 hq4 hq5 hq6
  clear_value m stA a r r2 r6
  have hfrlo : r.1 lo = stA lo := permSt_frame hq1 lo (by omega)
  have hfrhi : r.1 (hi - 1) = stA (hi - 1) := permSt_frame hq1 (hi - 1)
    (by omega)
  have hP1r : ∀ i, lo + 1 ≤ i → i < a → lessSt r.1 i lo = true := by
    intro i h1 h2
    rw [lessSt_congr stA r.1 i lo i lo (permSt_frame hq1 i (by omega)) hfrlo]
    exact hA3 i h1 h2
  have hPhir : lessSt r.1 (hi - 1) lo = false := by
    rw [lessSt_congr stA r.1 (hi - 1) lo (hi - 1) lo hfrhi hfrlo]
    exact hPhiA
  -- the mid state after the optional duplicate-counting block
  have hM : PermSt r.1 r2.1 lo hi ∧ a ≤ r2.2.1 ∧ r2.2.1 ≤ r2.2.2.1 ∧
      r2.2.2.1 ≤ hi ∧
      (∀ i, lo + 1 ≤ i → i < a → lessSt r2.1 i lo = true) ∧
      (∀ i, a ≤ i → i < r2.2.1 → lessSt r2.1 lo i = false) ∧
      (∀ i, r2.2.1 ≤ i → i < r2.2.2.1 →
        lessSt r2.1 lo i = false ∧ lessSt r2.1 i lo = false) ∧
      (∀ i, r2.2.2.1 ≤ i → i < hi → lessSt r2.1 i lo = false) := by
    by_cases hcond : ¬ (hi - r.2.2 < 5) ∧ hi - r.2.2 < (hi - lo) / 4
    · have hr2eq : r2 =
          ((dupsBlock r.1 lo m hi r.2.1 r.2.2).1,
           (dupsBlock r.1 lo m hi r.2.1 r.2.2).2.1,
           (dupsBlock r.1 lo m hi r.2.1 r.2.2).2.2.1,
           decide ((dupsBlock r.1 lo m hi r.2.1 r.2.2).2.2.2 > 1)) := by
        rw [hr2, if_pos hcond]
      have hDeq : dupsBlock r.1 lo m hi r.2.1 r.2.2 =
          dupsBlock r.1 lo m hi r.2.2 r.2.2 := by rw [hq2]
      have hr21 : r2.1 = (dupsBlock r.1 lo m hi r.2.2 r.2.2).1 := by
        rw [hr2eq, hDeq]
      have hr22 : r2.2.1 = (dupsBlock r.1 lo m hi r.2.2 r.2.2).2.1 := by
        rw [hr2eq, hDeq]
      have hr23 : r2.2.2.1 = (dupsBlock r.1 lo m hi r.2.2 r.2.2).2.2.1 := by
        rw [hr2eq, hDeq]
      have hPmr : lessSt r.1 lo m = false := by
        by_cases hma : m < a
        · exact lessSt_asymm (hP1r m (by omega) hma)
        · exact hq5 m (by omega) (by omega)
      obtain ⟨hd1, hd2, hd3, hd4, hd5, hd6, hd7, hd8⟩ :=
        dupsBlock_spec lo hi m a r.2.2 r.1 h13 hA1 (by omega) hq4 (by omega)
          (by omega) hm hP1r (fun i h1 h2 => hq5 i h1 (by omega))
          (fun i h1 h2 => hq6 i h1 h2) hPhir hPmr
      rw [hr21, hr22, hr23]
      exact ⟨permSt_mono hd1 (by omega) (le_refl hi), hd2, hd3, hd4, hd5,
        hd6, hd7, hd8⟩
    · have hr2eq : r2 = (r.1, r.2.1, r.2.2, decide (hi - r.2.2 < 5)) := by
        rw [hr2, if_neg hcond]
      have hr21 : r2.1 = r.1 := by rw [hr2eq]
      have hr22 : r2.2.1 = r.2.1 := by rw [hr2eq]
      have hr23 : r2.2.2.1 = r.2.2 := by rw [hr2eq]
      rw [hr21, hr22, hr23]
      refine ⟨permSt_refl _ _ _, hq3, by omega, by omega, hP1r, hq5,
        fun i h1 h2 => absurd h2 (by omega), ?_⟩
      intro i h1 h2
      by_cases hihi : i = hi - 1
      · rw [hihi]; exact hPhir
      · exact lessSt_asymm (hq6 i h1 (by omega))
  obtain ⟨hM0, hMa, hMab, hMc, hMP1, hMP2, hMP3, hMP4⟩ := hM
  -- the protection loop, or not, and the final pivot swap
  have hr6or : r6 = protectLoop (r2.2.1 - a) r2.1 a r2.2.1 lo ∨
      r6 = (r2.1, a, r2.2.1) := by
    cases hb2 : r2.2.2.2
    · right
      rw [hr6, if_neg (by rw [hb2]; exact Bool.false_ne_true)]
    · left
      rw [hr6, if_pos hb2]
  obtain ⟨g1, g2, g3, g4, g5, g6⟩ :=
    pivotFinish_spec lo hi a r2.2.2.1 r2.1 r2.2.1 r6 hr6or hA1 hMa hMab hMc
      hMP1 hMP2 hMP3 hMP4
  rw [hgoal]
  refine ⟨?_, g1, g2, hMc, g4, g5, g6⟩
  exact permSt_trans hpermA (permSt_trans (permSt_mono hq1 (by omega)
    (by omega)) (permSt_trans hM0 g3))

theorem key_congr {st st' : St} {i : Nat} (h : st' i = st i) :
    key st' i = key st i := by
  rw [key, key, h]

theorem qs_combine (st : St) (a mlo mhi b : Nat)
    (h1 : a ≤ mlo) (h2 : mlo < mhi) (h3 : mhi ≤ b)
    (hL : SortedSeg st a mlo) (hR : SortedSeg st mhi b)
    (hLv : ∀ i, a ≤ i → i < mlo → key st i ≤ key st mlo)
    (hM : ∀ i, mlo ≤ i → i < mhi → key st i = key st mlo)
    (hRv : ∀ i, mhi ≤ i → i < b → key st mlo ≤ key st i) :
    SortedSeg st a b := by
  intro i j hi hij hj
  by_cases hj1 : j < mlo
  · exact hL i j hi hij hj1
  · by_cases hi1 : i < mlo
    · refine le_trans (hLv i hi hi1) ?_
      by_cases hj2 : j < mhi
      · rw [hM j (by omega) hj2]
      · exact hRv j (by omega) hj
    · by_cases hi2 : i < mhi
      · rw [hM i (by omega) hi2]
        by_cases hj2 : j < mhi
        · rw [hM j (by omega) hj2]
        · exact hRv j (by omega) hj
      · exact hR i j (by omega) hij hj

theorem qs_glue_left (st1 stX stY : St) (a mlo mhi b : Nat)
    (h1 : a ≤ mlo) (h2 : mlo < mhi) (h3 : mhi ≤ b)
    (hLv : ∀ i, a ≤ i → i < mlo → key st1 i ≤ key st1 mlo)
    (hMv : ∀ i, mlo ≤ i → i < mhi → key st1 i = key st1 mlo)
    (hRv : ∀ i, mhi ≤ i → i < b → key st1 mlo ≤ key st1 i)
    (hpX : PermSt st1 stX a mlo) (hsX : SortedSeg stX a mlo)
    (hpY : PermSt stX stY mhi b) (hsY : SortedSeg stY mhi b) :
    PermSt st1 stY a b ∧ SortedSeg stY a b := by
  have hfrX : ∀ x, x < a ∨ mlo ≤ x → stX x = st1 x := permSt_frame hpX
  have hfrY : ∀ x, x < mhi ∨ b ≤ x → stY x = stX x := permSt_frame hpY
  have hmloY : stY mlo = st1 mlo := by
    rw [hfrY mlo (Or.inl h2), hfrX mlo (Or.inr (le_refl mlo))]
  refine ⟨permSt_trans (permSt_mono hpX (le_refl a) (by omega))
    (permSt_mono hpY (by omega) (le_refl b)), ?_⟩
  refine qs_combine stY a mlo mhi b h1 h2 h3 ?_ hsY ?_ ?_ ?_
  · intro i j hi hij hj
    rw [key_congr (hfrY i (Or.inl (by omega))),
      key_congr (hfrY j (Or.inl (by omega)))]
    exact hsX i j hi hij hj
  · intro i hi1 hi2
    rw [key_congr hmloY, key_congr (hfrY i (Or.inl (by omega)))]
    exact @permSt_pred st1 stX a mlo
      (fun u => u.PartNumber ≤ key st1 mlo) hpX
      (fun p hp1 hp2 => hLv p hp1 hp2) i hi1 hi2
  · intro i hi1 hi2
    rw [key_congr hmloY, key_congr (hfrY i (Or.inl (by omega))),
      key_congr (hfrX i (Or.inr hi1))]
    exact hMv i hi1 hi2
  · intro i hi1 hi2
    rw [key_congr hmloY]
    refine @permSt_pred stX stY mhi b
      (fun u => key st1 mlo ≤ u.PartNumber) hpY ?_ i hi1 hi2
    intro p hp1 hp2
    have hv : stX p = st1 p := hfrX p (Or.inr (by omega))
    show key st1 mlo ≤ key stX p
    rw [key_congr hv]
    exact hRv p hp1 hp2

theorem qs_glue_right (st1 stX stY : St) (a mlo mhi b : Nat)
    (h1 : a ≤ mlo) (h2 : mlo < mhi) (h3 : mhi ≤ b)
    (hLv : ∀ i, a ≤ i → i < mlo → key st1 i ≤ key st1 mlo)
    (hMv : ∀ i, mlo ≤ i → i < mhi → key st1 i = key st1 mlo)
    (hRv : ∀ i, mhi ≤ i → i < b → key st1 mlo ≤ key st1 i)
    (hpX : PermSt st1 stX mhi b) (hsX : SortedSeg stX mhi b)
    (hpY : PermSt stX stY a mlo) (hsY : SortedSeg stY a mlo) :
    PermSt st1 stY a b ∧ SortedSeg stY a b := by
  have hfrX : ∀ x, x < mhi ∨ b ≤ x → stX x = st1 x := permSt_frame hpX
  have hfrY : ∀ x, x < a ∨ mlo ≤ x → stY x = stX x := permSt_frame hpY
  have hmloY : stY mlo = st1 mlo := by
    rw [hfrY mlo (Or.inr (le_refl mlo)), hfrX mlo (Or.inl h2)]
  refine ⟨permSt_trans (permSt_mono hpX (by omega) (le_refl b))
    (permSt_mono hpY (le_refl a) (by omega)), ?_⟩
  refine qs_combine stY a mlo mhi b h1 h2 h3 hsY ?_ ?_ ?_ ?_
  · intro i j hi hij hj
    rw [key_congr (hfrY i (Or.inr (by omega))),
      key_congr (hfrY j (Or.inr (by omega)))]
    exact hsX i j hi hij hj
  · intro i hi1 hi2
    rw [key_congr hmloY]
    refine @permSt_pred stX stY a mlo
      (fun u => u.PartNumber ≤ key st1 mlo) hpY ?_ i hi1 hi2
    intro p hp1 hp2
    have hv : stX p = st1 p := hfrX p (Or.inl (by omega))
    show key stX p ≤ key st1 mlo
    rw [key_congr hv]
    exact hLv p hp1 hp2
  · intro i hi1 hi2
    rw [key_congr hmloY, key_congr (hfrY i (Or.inr hi1)),
      key_congr (hfrX i (Or.inl (by omega)))]
    exact hMv i hi1 hi2
  · intro i hi1 hi2
    rw [key_congr hmloY, key_congr (hfrY i (Or.inr (by omega)))]
    exact @permSt_pred st1 stX mhi b
      (fun u => key st1 mlo ≤ u.PartNumber) hpX
      (fun p hp1 hp2 => hRv p hp1 hp2) i hi1 hi2

theorem quickSort_succ (d : Nat) (st : St) (a b : Nat) :
    quickSort (d + 1) st a b =
      (if b - a > 12 then
        (if (doPivot st a b).2.1 - a < b - (doPivot st a b).2.2 then
          quickSort d (quickSort d (doPivot st a b).1 a (doPivot st a b).2.1)
            (doPivot st a b).2.2 b
        else
          quickSort d (quickSort d (doPivot st a b).1 (doPivot st a b).2.2 b)
            a (doPivot st a b).2.1)
      else qsBase st a b) := rfl

theorem quickSort_spec :
    ∀ (d : Nat) (st : St) (a b : Nat),
      PermSt st (quickSort d st a b) a b ∧
      SortedSeg (quickSort d st a b) a b := by
  intro d
  induction d with
  | zero =>
    intro st a b
    rw [quickSort]
    by_cases hab : b - a > 12
    · rw [if_pos hab]
      exact ⟨heapSort_perm st a b (by omega), heapSort_sorted st a b (by omega)⟩
    · rw [if_neg hab]
      exact ⟨qsBase_perm st a b, qsBase_sorted st a b⟩
  | succ d ih =>
    intro st a b
    rw [quickSort_succ]
    by_cases hab : b - a > 12
    · rw [if_pos hab]
      obtain ⟨hp, hp1, hp2, hp3, hpL, hpM, hpR⟩ := doPivot_spec st a b hab
      by_cases hbr : (doPivot st a b).2.1 - a < b - (doPivot st a b).2.2
      · rw [if_pos hbr]
        obtain ⟨hx1, hx2⟩ := ih (doPivot st a b).1 a (doPivot st a b).2.1
        obtain ⟨hy1, hy2⟩ := ih
          (quickSort d (doPivot st a b).1 a (doPivot st a b).2.1)
          (doPivot st a b).2.2 b
        obtain ⟨hg1, hg2⟩ := qs_glue_left (doPivot st a b).1 _ _ a
          (doPivot st a b).2.1 (doPivot st a b).2.2 b hp1 hp2 hp3 hpL hpM hpR
          hx1 hx2 hy1 hy2
        exact ⟨permSt_trans hp hg1, hg2⟩
      · rw [if_neg hbr]
        obtain ⟨hx1, hx2⟩ := ih (doPivot st a b).1 (doPivot st a b).2.2 b
        obtain ⟨hy1, hy2⟩ := ih
          (quickSort d (doPivot st a b).1 (doPivot st a b).2.2 b)
          a (doPivot st a b).2.1
        obtain ⟨hg1, hg2⟩ := qs_glue_right (doPivot st a b).1 _ _ a
          (doPivot st a b).2.1 (doPivot st a b).2.2 b hp1 hp2 hp3 hpL hpM hpR
          hx1 hx2 hy1 hy2
        exact ⟨permSt_trans hp hg1, hg2⟩
    · rw [if_neg hab]
      exact ⟨qsBase_perm st a b, qsBase_sorted st a b⟩

/-! #### `sortParts` at the list level -/

theorem map_getD_range (l : List UploadPart) (d : UploadPart) :
    (List.range l.length).map (fun k => l.getD k d) = l := by
  apply List.ext_getElem
  · simp
  · intro i h1 h2
    simp only [List.getElem_map, List.getElem_range]
    rw [List.getD_eq_getElem l d h2]

theorem sortParts_eq (l : List UploadPart) :
    sortParts l = (List.range l.length).map
      (quickSort (maxDepth l.length) (fun k => l.getD k ⟨0, ""⟩) 0 l.length) :=
  rfl

theorem sortParts_perm (l : List UploadPart) : (sortParts l).Perm l := by
  obtain ⟨σ, hσ, hst⟩ :=
    (quickSort_spec (maxDepth l.length) (fun k => l.getD k ⟨0, ""⟩) 0
      l.length).1
  have h1 : sortParts l =
      ((List.range l.length).map σ).map (fun k => l.getD k ⟨0, ""⟩) := by
    rw [sortParts_eq, hst, List.map_map]
    rfl
  have h2 : ((List.range l.length).map σ).Perm (List.range l.length) := by
    apply List.perm_of_nodup_nodup_toFinset_eq
    · exact (List.nodup_range _).map σ.injective
    · exact List.nodup_range _
    · ext x
      simp only [List.mem_toFinset, List.mem_map, List.mem_range]
      constructor
      · rintro ⟨y, hy, rfl⟩
        exact (movesWithin_mem hσ (Nat.zero_le y) hy).2
      · intro hx
        refine ⟨σ.symm x, ?_, σ.apply_symm_apply x⟩
        by_contra hcon
        push_neg at hcon
        have hfix : σ (σ.symm x) = σ.symm x := hσ (σ.symm x) (Or.inr hcon)
        rw [σ.apply_symm_apply] at hfix
        omega
  have h3 := h2.map (fun k => l.getD k ⟨0, ""⟩)
  rw [map_getD_range] at h3
  rw [h1]
  exact h3

theorem ascendingByOrdinal_iff (l : List UploadPart) :
    ascendingByOrdinal l = true ↔
      l.Chain' (fun p q => p.PartNumber ≤ q.PartNumber) := by
  induction l with
  | nil => simp [ascendingByOrdinal]
  | cons p rest ih =>
    cases rest with
    | nil => simp [ascendingByOrdinal]
    | cons q rest2 =>
      rw [ascendingByOrdinal, Bool.and_eq_true, decide_eq_true_eq,
        List.chain'_cons, ih]

theorem strictlyAscendingByOrdinal_iff (l : List UploadPart) :
    strictlyAscendingByOrdinal l = true ↔
      l.Chain' (fun p q => p.PartNumber < q.PartNumber) := by
  induction l with
  | nil => simp [strictlyAscendingByOrdinal]
  | cons p rest ih =>
    cases rest with
    | nil => simp [strictlyAscendingByOrdinal]
    | cons q rest2 =>
      rw [strictlyAscendingByOrdinal, Bool.and_eq_true, decide_eq_true_eq,
        List.chain'_cons, ih]

theorem sortParts_sorted (l : List UploadPart) :
    ascendingByOrdinal (sortParts l) = true := by
  rw [ascendingByOrdinal_iff, sortParts_eq, List.chain'_map]
  have hs := (quickSort_spec (maxDepth l.length) (fun k => l.getD k ⟨0, ""⟩) 0
    l.length).2
  cases hn : l.length with
  | zero => simp
  | succ n =>
    rw [List.chain'_range_succ]
    intro mm hmm
    have := hs mm (mm + 1) (Nat.zero_le _) (by omega) (by omega)
    rw [hn] at this
    exact this

theorem sorted_strict_of_asc_nodup (l' : List UploadPart)
    (h1 : l'.Chain' (fun p q => p.PartNumber ≤ q.PartNumber))
    (h2 : (l'.map (fun p => p.PartNumber)).Nodup) :
    l'.Sorted (fun p q => p.PartNumber < q.PartNumber) := by
  haveI : IsTrans UploadPart (fun p q => p.PartNumber ≤ q.PartNumber) :=
    ⟨fun a b c hab hbc => le_trans hab hbc⟩
  have hp1 : l'.Pairwise (fun p q => p.PartNumber ≤ q.PartNumber) :=
    List.chain'_iff_pairwise.mp h1
  have hp2 : l'.Pairwise (fun p q => p.PartNumber ≠ q.PartNumber) :=
    List.pairwise_map.mp h2
  exact (hp1.and hp2).imp (fun h => lt_of_le_of_ne h.1 h.2)

/-- **C3 (amended).**  The ordering `CompleteMultipartUpload` applies to the
part list before issuing the Complete request (`sort.Sort(uploadParts(parts))`,
line 161) produces a permutation of the submitted results — nothing dropped,
nothing deduplicated — that is ascending by ordinal; stability is *not*
claimed (see the counterexample theorem). -/
theorem completeRequestParts_sorted_perm (parts : List UploadPart) :
    (completeRequestParts parts).Perm parts ∧
    ascendingByOrdinal (completeRequestParts parts) = true :=
  ⟨sortParts_perm parts, sortParts_sorted parts⟩

/-- **C4 (amended).**  On part lists with pairwise-distinct ordinals the
finalization ordering is canonical: any permutation of the list sorts to the
same sequence, and a strictly-ascending list is returned unchanged (so the
ordering is idempotent and permutation-invariant in the distinct-ordinal
case). -/
theorem sortParts_distinctOrdinals (l l' : List UploadPart)
    (hnd : (l.map (fun p => p.PartNumber)).Nodup)
    (hperm : l'.Perm l) :
    sortParts l' = sortParts l ∧
    (strictlyAscendingByOrdinal l = true → sortParts l = l) := by
  haveI : IsAntisymm UploadPart (fun p q => p.PartNumber < q.PartNumber) :=
    ⟨fun a b h1 h2 => absurd (lt_trans h1 h2) (lt_irrefl _)⟩
  have hnd' : (l'.map (fun p => p.PartNumber)).Nodup :=
    ((hperm.map _).nodup_iff).mpr hnd
  have hSl : (sortParts l).Sorted (fun p q => p.PartNumber < q.PartNumber) := by
    apply sorted_strict_of_asc_nodup
    · rw [← ascendingByOrdinal_iff]
      exact sortParts_sorted l
    · exact (((sortParts_perm l).map _).nodup_iff).mpr hnd
  have hSl' : (sortParts l').Sorted
      (fun p q => p.PartNumber < q.PartNumber) := by
    apply sorted_strict_of_asc_nodup
    · rw [← ascendingByOrdinal_iff]
      exact sortParts_sorted l'
    · exact (((sortParts_perm l').map _).nodup_iff).mpr hnd'
  constructor
  · exact List.eq_of_perm_of_sorted
      (((sortParts_perm l').trans hperm).trans (sortParts_perm l).symm)
      hSl' hSl
  · intro hstrict
    haveI : IsTrans UploadPart (fun p q => p.PartNumber < q.PartNumber) :=
      ⟨fun a b c hab hbc => lt_trans hab hbc⟩
    refine List.eq_of_perm_of_sorted (sortParts_perm l) hSl ?_
    exact List.chain'_iff_pairwise.mp ((strictlyAscendingByOrdinal_iff l).mp
      hstrict)

/-- Witness for the amended C4 theorem: a concrete 3-part distinct-ordinal
list and a rotation of it. -/
theorem sortParts_distinctOrdinals_witness :
    (([⟨1, "a"⟩, ⟨2, "b"⟩, ⟨3, "c"⟩] : List UploadPart).map
      (fun p => p.PartNumber)).Nodup ∧
    ([⟨2, "b"⟩, ⟨3, "c"⟩, ⟨1, "a"⟩] : List UploadPart).Perm
      [⟨1, "a"⟩, ⟨2, "b"⟩, ⟨3, "c"⟩] ∧
    (sortParts [⟨2, "b"⟩, ⟨3, "c"⟩, ⟨1, "a"⟩] =
        sortParts [⟨1, "a"⟩, ⟨2, "b"⟩, ⟨3, "c"⟩] ∧
      (strictlyAscendingByOrdinal [⟨1, "a"⟩, ⟨2, "b"⟩, ⟨3, "c"⟩] = true →
        sortParts [⟨1, "a"⟩, ⟨2, "b"⟩, ⟨3, "c"⟩] =
          [⟨1, "a"⟩, ⟨2, "b"⟩, ⟨3, "c"⟩])) :=
  ⟨by decide, by decide,
    sortParts_distinctOrdinals [⟨1, "a"⟩, ⟨2, "b"⟩, ⟨3, "c"⟩]
      [⟨2, "b"⟩, ⟨3, "c"⟩, ⟨1, "a"⟩] (by decide) (by decide)⟩

end OSS
